import Mathlib

/-!
Verification of the text-VAE training/decoding engine of `src/models/lm_vae.py`
(repository UvA_FACT_2021).

The Python code is shallowly embedded as follows.

* Tensors along the batch dimension become `List`s; a single float becomes `ℚ`
  (exact rational arithmetic; the claims under scrutiny are about control flow,
  counting, ordering and structural equalities, none of which depend on
  floating-point rounding).  The one exception is the kl_weight annealing
  trace, whose exact-equality behaviour does depend on rounding: there the
  binary64 arithmetic the program runs is modeled bit-exactly over `ℚ`
  (`roundNearestEven`, `rnd64`, `addF`, `rate01`, `klAnnealF`), every
  binary64 double being a rational number.
* The LSTM decoder cell together with the output projection `linear_out` is an
  abstract per-element transition `step : H → ℕ → H × List ℚ` mapping a hidden
  state and the previous token id to the next hidden state and the vocabulary
  logits.  The latent code `z` and the learned parameters are baked into `step`
  and into the initial hidden state `h0` (in the source, `c_init = linear_in z`,
  `h_init = tanh c_init`, computed identically by `greedy_decode`,
  `sample_decode` and `beam_search_decode`).  Batched LSTM calls act
  independently on each batch (or live-hypothesis) column, so they are embedded
  as per-element applications of `step`.
* Transcendental functions (`exp`, `log`, `log_softmax`'s normaliser
  `logsumexp`) have no rational values; each is taken as an explicit function
  parameter (`expQ`, `logQ`, `lse`, the constant `log2pi`).  The theorems hold
  for every choice of these parameters, so nothing is assumed about them beyond
  what the source guarantees (e.g. `log_softmax v = v - logsumexp v` subtracts
  the same constant from every component of a row).
* Python exceptions (`ZeroDivisionError` from `x % 0` and from `0 / 0`,
  `UnboundLocalError` from returning an unassigned variable) are embedded with
  `Option`: `none` is a raised exception.
* Gradient bookkeeping is abstracted to counters: each `manual_backward(loss,
  opt)` and each `opt.step()` call increments a counter of the corresponding
  optimizer; `torch.no_grad` / `.detach()` are modeled by a `requiresGrad` flag
  on the value returned by `MutualInformation`.
-/

namespace LmVae

/-! ### Generic list helpers -/

/-- Maximum entry of a list of scores (0 for the empty list). -/
def listMax : List ℚ → ℚ
  | [] => 0
  | [x] => x
  | x :: y :: xs => max x (listMax (y :: xs))

/-- First index attaining the maximum: the embedding of `torch.argmax`. -/
def argmaxIdx : List ℚ → ℕ
  | [] => 0
  | [_] => 0
  | x :: y :: xs => if listMax (y :: xs) ≤ x then 0 else argmaxIdx (y :: xs) + 1

/-- Insert into a descending-sorted list of `(index, score)` pairs, keeping
earlier elements first among equal scores. -/
def insertDesc (p : ℕ × ℚ) : List (ℕ × ℚ) → List (ℕ × ℚ)
  | [] => [p]
  | q :: qs => if q.2 ≤ p.2 then p :: q :: qs else q :: insertDesc p qs

/-- Stable descending sort by score. -/
def sortDesc (l : List (ℕ × ℚ)) : List (ℕ × ℚ) := l.foldr insertDesc []

/-- The embedding of `torch.topk`: the `k` largest scores with their indices,
in descending score order (ties: by ascending index). -/
def topk (k : ℕ) (scores : List ℚ) : List (ℕ × ℚ) := (sortDesc scores.enum).take k

/-- Abstract decoder step: hidden state and previous token id to next hidden
state and vocabulary logits. -/
def StepF (H : Type) : Type := H → ℕ → H × List ℚ

/-- Default step used only as a `getD` fallback. -/
def dStep {H : Type} : StepF H := fun h _ => (h, [])

/-- `' '.join(sent)` after mapping ids through `vocab.itos`. -/
def joinTokens (itos : ℕ → String) (toks : List ℕ) : String :=
  String.intercalate " " (toks.map itos)

/-! ### `LSTM_Decoder.greedy_decode` (lines 331-381) -/

/-- The loop state of `greedy_decode`: per-element hidden states, previous
tokens (`decoder_input`), the active mask, the accumulated output tokens, and
the step counter `length_c`. -/
structure GreedyState (H : Type) where
  hiddens : List H
  inputs : List ℕ
  mask : List Bool
  decoded : List (List ℕ)
  length_c : ℕ

/-- One iteration of the `greedy_decode` while-loop: step every element (also
masked ones, as the source does), take the argmax token, append it to the
output of every still-active element (note: *before* the mask update, so the
end token itself is appended), then clear the mask of elements that just
emitted the end token. -/
def greedyIter {H : Type} (steps : List (StepF H)) (endTok : ℕ) (s : GreedyState H) :
    GreedyState H :=
  let stepped := (steps.zip (s.hiddens.zip s.inputs)).map (fun fp => fp.1 fp.2.1 fp.2.2)
  let max_index := stepped.map (fun p => argmaxIdx p.2)
  { hiddens := stepped.map Prod.fst
    inputs := max_index
    mask := (s.mask.zip max_index).map (fun p => if p.2 = endTok then false else p.1)
    decoded := ((s.decoded.zip s.mask).zip max_index).map
      (fun p => if p.1.2 then p.1.1 ++ [p.2] else p.1.1)
    length_c := s.length_c + 1 }

/-- The `while mask.sum() != 0 and length_c < max_length` loop.  The fuel
argument only bounds the recursion; the source loop terminates because
`length_c` strictly increases, so fuel `max_length` is never the binding
constraint. -/
def greedyLoop {H : Type} (steps : List (StepF H)) (endTok : ℕ) (max_length : ℕ) :
    ℕ → GreedyState H → GreedyState H
  | 0, s => s
  | fuel + 1, s =>
    if (s.mask.any fun b => b) = true ∧ s.length_c < max_length then
      greedyLoop steps endTok max_length fuel (greedyIter steps endTok s)
    else s

/-- Token-level result of `greedy_decode` (before `' '.join`). -/
def greedyTokens {H : Type} (steps : List (StepF H)) (startTok endTok : ℕ) (h0s : List H)
    (max_length : ℕ) : List (List ℕ) :=
  (greedyLoop steps endTok max_length max_length
    { hiddens := h0s
      inputs := List.replicate h0s.length startTok
      mask := List.replicate h0s.length true
      decoded := List.replicate h0s.length []
      length_c := 1 }).decoded

/-- `LSTM_Decoder.greedy_decode`: one decoded string per batch element. -/
def greedy_decode {H : Type} (steps : List (StepF H)) (startTok endTok : ℕ) (h0s : List H)
    (max_length : ℕ) (itos : ℕ → String) : List String :=
  (greedyTokens steps startTok endTok h0s max_length).map (joinTokens itos)

/-- Reference per-element unrolling of greedy decoding: emit the argmax token,
stop after emitting the end token or after `fuel` tokens.  `greedy_decode` is
proved to compute this element-wise with `fuel = max_length - 1`. -/
def greedyElem {H : Type} (f : StepF H) (endTok : ℕ) : H → ℕ → ℕ → List ℕ
  | _, _, 0 => []
  | h, tok, fuel + 1 =>
    let p := f h tok
    let t := argmaxIdx p.2
    t :: (if t = endTok then [] else greedyElem f endTok p.1 t fuel)

/-- One iteration of the `sample_decode` while-loop. -/
def sampleIter {H : Type} (steps : List (StepF H)) (sampler : ℕ → List ℚ → ℕ) (endTok : ℕ)
    (s : GreedyState H) : GreedyState H :=
  let stepped := (steps.zip (s.hiddens.zip s.inputs)).map (fun fp => fp.1 fp.2.1 fp.2.2)
  let sample_index := stepped.map (fun p => sampler s.length_c p.2)
  { hiddens := stepped.map Prod.fst
    inputs := sample_index
    mask := (s.mask.zip sample_index).map (fun p => if p.2 = endTok then false else p.1)
    decoded := ((s.decoded.zip s.mask).zip sample_index).map
      (fun p => if p.1.2 then p.1.1 ++ [p.2] else p.1.1)
    length_c := s.length_c + 1 }

def sampleLoop {H : Type} (steps : List (StepF H)) (sampler : ℕ → List ℚ → ℕ) (endTok : ℕ)
    (max_length : ℕ) : ℕ → GreedyState H → GreedyState H
  | 0, s => s
  | fuel + 1, s =>
    if (s.mask.any fun b => b) = true ∧ s.length_c < max_length then
      sampleLoop steps sampler endTok max_length fuel (sampleIter steps sampler endTok s)
    else s

/-- `LSTM_Decoder.sample_decode`. -/
def sample_decode {H : Type} (steps : List (StepF H)) (sampler : ℕ → List ℚ → ℕ)
    (startTok endTok : ℕ) (h0s : List H) (max_length : ℕ) (itos : ℕ → String) :
    List String :=
  (sampleLoop steps sampler endTok max_length max_length
    { hiddens := h0s
      inputs := List.replicate h0s.length startTok
      mask := List.replicate h0s.length true
      decoded := List.replicate h0s.length []
      length_c := 1 }).decoded.map (joinTokens itos)

/-! ### `LSTM_Decoder.beam_search_decode` (lines 220-329) -/

/-- Modelled from the spec: `BeamSearchNode` is the "immutable tree node
`{hidden_state, parent (may be null for root), token_id, cumulative_log_prob,
depth}`" of the data model (the class itself lives in
`utils/lagging_encoder.py`, which is not under `src/`; `beam_search_decode`
only constructs nodes and reads these five fields). -/
inductive BeamSearchNode (H : Type) : Type where
  | mk (h : H) (prevNode : Option (BeamSearchNode H)) (wordid : ℕ) (logp : ℚ) (leng : ℕ)

def BeamSearchNode.h {H : Type} : BeamSearchNode H → H
  | .mk h _ _ _ _ => h

def BeamSearchNode.prevNode {H : Type} : BeamSearchNode H → Option (BeamSearchNode H)
  | .mk _ p _ _ _ => p

def BeamSearchNode.wordid {H : Type} : BeamSearchNode H → ℕ
  | .mk _ _ w _ _ => w

def BeamSearchNode.logp {H : Type} : BeamSearchNode H → ℚ
  | .mk _ _ _ lp _ => lp

def BeamSearchNode.leng {H : Type} : BeamSearchNode H → ℕ
  | .mk _ _ _ _ n => n

/-- Fallback node used only as a `getD` default. -/
def dNode {H : Type} (dH : H) : BeamSearchNode H := .mk dH none 0 0 0

/-- `F.log_softmax(logits)` subtracts the row's logsumexp (a transcendental
constant, abstracted as `lse`) from every logit. -/
def logSoftmax (lse : List ℚ → ℚ) (l : List ℚ) : List ℚ := l.map (fun v => v - lse l)

/-- One iteration of the beam-search while-loop for a single input sequence:
batch the live hypotheses through one decoder step (the LSTM acts
independently on each live column), add each hypothesis's running
log-probability to the log-softmax row, flatten, take the top
`K - len(completed)` candidates, and route each new node to `completed`
(if its token is the end token) or to the new live list. -/
def beamLoopBody {H : Type} (stepf : StepF H) (lse : List ℚ → ℚ) (V K endTok : ℕ) (dH : H)
    (live completed : List (BeamSearchNode H)) (t : ℕ) :
    List (BeamSearchNode H) × List (BeamSearchNode H) :=
  let stepped := live.map (fun nd => stepf nd.h nd.wordid)
  let flatScores := (stepped.zip live).flatMap
      (fun pn => (logSoftmax lse pn.1.2).map (fun v => v + pn.2.logp))
  let picks := topk (K - completed.length) flatScores
  picks.foldl (fun acc pk =>
      let live_id := pk.1 / V
      let word_id := pk.1 % V
      let nd := BeamSearchNode.mk (stepped.getD live_id (dH, [])).1
        (some (live.getD live_id (dNode dH))) word_id pk.2 t
      if word_id = endTok then (acc.1, acc.2 ++ [nd]) else (acc.1 ++ [nd], acc.2))
    ([], completed)

/-- The `while len(completed) < K and t < max_length` loop; the fuel is
`max_length - t`, so the fuel-zero base case is exactly the `t < max_length`
exit.  Returns `(live, completed)`. -/
def beamLoop {H : Type} (stepf : StepF H) (lse : List ℚ → ℚ) (V K endTok : ℕ) (dH : H) :
    ℕ → List (BeamSearchNode H) → List (BeamSearchNode H) → ℕ →
    List (BeamSearchNode H) × List (BeamSearchNode H)
  | 0, live, completed, _ => (live, completed)
  | fuel + 1, live, completed, t =>
    if completed.length < K then
      let lc := beamLoopBody stepf lse V K endTok dH live completed (t + 1)
      if lc.2.length = K then lc
      else beamLoop stepf lse V K endTok dH fuel lc.1 lc.2 (t + 1)
    else (live, completed)

/-- The back-trace while-loop: walk `prevNode` links, appending each parent's
token until the parent's token is the start token (or the root is reached);
called on `n.prevNode`. -/
def backtraceAux {H : Type} (startTok : ℕ) : Option (BeamSearchNode H) → List ℕ
  | none => []
  | some (.mk _ prev w _ _) =>
    if w ≠ startTok then w :: backtraceAux startTok prev else []

/-- The token sequence reconstructed from a completed hypothesis: its own
token, then the ancestors' tokens up to (and excluding) the start token,
finally reversed — exactly the `utterance` construction of the source. -/
def utteranceOf {H : Type} (startTok : ℕ) (n : BeamSearchNode H) : List ℕ :=
  (n.wordid :: backtraceAux startTok n.prevNode).reverse

/-- `sorted(completed_hypotheses, key=logp, reverse=True)[0]`: the stable
descending sort puts the earliest hypothesis attaining the maximal
log-probability first. -/
def bestNode {H : Type} (dH : H) : List (BeamSearchNode H) → BeamSearchNode H
  | [] => dNode dH
  | [nd] => nd
  | nd :: nd2 :: rest =>
    let b := bestNode dH (nd2 :: rest)
    if b.logp > nd.logp then b else nd

/-- `LSTM_Decoder.beam_search_decode`: decodes sentence by sentence; per
sentence runs the beam loop from a single root hypothesis (start token,
log-probability 0, depth 1), appends the still-live hypotheses to the
completed ones, and returns the utterance of the best completed hypothesis. -/
def beam_search_decode {H : Type} (steps : List (StepF H)) (lse : List ℚ → ℚ)
    (V startTok endTok : ℕ) (dH : H) (h0s : List H) (K max_length : ℕ)
    (itos : ℕ → String) : List String :=
  (steps.zip h0s).map (fun fh =>
    let root := BeamSearchNode.mk fh.2 none startTok 0 1
    let lc := beamLoop fh.1 lse V K endTok dH max_length [root] [] 0
    joinTokens itos (utteranceOf startTok (bestNode dH (lc.2 ++ lc.1))))

/-- A scalar together with its autograd tracking flag. -/
structure TracedQ where
  val : ℚ
  requiresGrad : Bool

/-- `.detach()`: same value, removed from the gradient graph. -/
def detach (x : TracedQ) : TracedQ := ⟨x.val, false⟩

/-- A value produced under `@torch.no_grad()`: gradient tracking disabled. -/
def noGradVal (v : ℚ) : TracedQ := ⟨v, false⟩

/-- `.mean()` of a flat tensor. -/
def qmean (l : List ℚ) : ℚ := l.sum / l.length

/-- Modelled from the spec: `sample_reparameterize(mean, log_std)` draws
`z = mean + exp(log_std) * eps` with `eps` standard-normal noise (§4.1 of the
spec; the function lives in `utils/vae_loss.py`, which is not under `src/`).
The noise matrix `eps` and the transcendental `exp` are explicit parameters. -/
def sample_reparameterize (expQ : ℚ → ℚ) (mean logstd eps : List (List ℚ)) :
    List (List ℚ) :=
  (mean.zip (logstd.zip eps)).map
    (fun r => (r.1.zip (r.2.1.zip r.2.2)).map (fun c => c.1 + expQ c.2.1 * c.2.2))

/-- `E_q(z|x) log q(z|x) = -0.5*z_dim*log(2π) - 0.5*(1+logvar).sum(-1)`,
averaged over the batch. -/
def mi_neg_entropy (log2pi : ℚ) (logvar : List (List ℚ)) (z_dim : ℕ) : ℚ :=
  qmean (logvar.map (fun row =>
    -(1/2) * (z_dim : ℚ) * log2pi - (1/2) * (row.map (fun v => 1 + v)).sum))

/-- The `z_iters` reparameterized sample batches, concatenated along dim 0
(the source's append-then-`torch.cat` loop). -/
def mi_z_samples (expQ : ℚ → ℚ) (eps : ℕ → List (List ℚ)) (z_iters : ℕ)
    (mean logstd : List (List ℚ)) : List (List ℚ) :=
  (List.range z_iters).flatMap (fun i => sample_reparameterize expQ mean logstd (eps i))

/-- The `(z_batch, x_batch)` Gaussian log-density matrix
`-0.5*((z-mean)²/var).sum(-1) - 0.5*(z_dim*log(2π) + logvar.sum(-1))`. -/
def mi_log_density (expQ : ℚ → ℚ) (log2pi : ℚ) (mean logvar : List (List ℚ)) (z_dim : ℕ)
    (z_samples : List (List ℚ)) : List (List ℚ) :=
  z_samples.map (fun z =>
    (mean.zip logvar).map (fun mv =>
      -(1/2) * ((z.zip (mv.1.zip mv.2)).map
          (fun c => (c.1 - c.2.1) ^ 2 / expQ c.2.2)).sum
        - (1/2) * ((z_dim : ℚ) * log2pi + mv.2.sum)))

/-- `log q(z) = logsumexp_over_inputs(log_density) - log(x_batch)` per sampled
z. -/
def mi_log_qz (lse : List ℚ → ℚ) (logQ : ℚ → ℚ) (x_batch : ℕ)
    (log_density : List (List ℚ)) : List ℚ :=
  log_density.map (fun row => lse row - logQ (x_batch : ℚ))

/-- `LSTM_Encoder.MutualInformation` with `stats = (mean, logstd)` supplied
(when `stats == None` the source first runs the encoder forward pass; the
claims quantify over all resulting `(mean, logstd)`, so the forward pass is
abstracted into those arguments).  The whole computation runs under
`@torch.no_grad()` and the result is `.detach()`-ed. -/
def MutualInformation (expQ logQ : ℚ → ℚ) (log2pi : ℚ) (lse : List ℚ → ℚ)
    (eps : ℕ → List (List ℚ)) (z_iters : ℕ) (mean logstd : List (List ℚ)) : TracedQ :=
  let logvar := logstd.map (fun row => row.map (fun v => 2 * v))
  let x_batch := mean.length
  let z_dim := (mean.getD 0 []).length
  let neg_entropy := mi_neg_entropy log2pi logvar z_dim
  let z_samples := mi_z_samples expQ eps z_iters mean logstd
  let log_density := mi_log_density expQ log2pi mean logvar z_dim z_samples
  let log_qz := mi_log_qz lse logQ x_batch log_density
  detach (noGradVal (neg_entropy - qmean log_qz))

/-! ### `lm_VAE` training orchestration (lines 436-638)

The mutable attributes touched by `training_step` / `validation_step` form the
`TrainState`.  Optimizer and gradient effects are abstracted to call counters:
`manual_backward(loss, opt)` increments `…Backwards`, `opt.step()` increments
`…Steps`; nothing else about the optimizers is observable in the claims.  The
losses returned by `self.forward(batch)` depend on the evolving network
parameters, so the forward pass is abstracted as a function `fwd` from the
inner-iteration index to the `(L_rec, L_reg)` pair (index 0 = the outer joint
pass); the loss values only flow into the inner early-stop comparison. -/

structure Hyper where
  inner_iter : ℕ
  anneal_rate : ℚ
  kl_weight_start : ℚ
  aggressive0 : Bool
  aggressive_patience : ℤ
  max_aggressive_epochs : ℕ

structure TrainState where
  aggressive : Bool
  stable_mi : Bool
  mi_patience : ℤ
  mi_prev : ℚ
  mi_curr : ℚ
  val_batches : ℕ
  kl_weight : ℚ
  encBackwards : ℕ
  decBackwards : ℕ
  encSteps : ℕ
  decSteps : ℕ

/-- The state set up by `lm_VAE.__init__` (lines 448-460): note
`val_batches = 1`, guarding the first epoch-start division. -/
def initState (hp : Hyper) : TrainState :=
  { aggressive := hp.aggressive0
    stable_mi := false
    mi_patience := hp.aggressive_patience
    mi_prev := 0
    mi_curr := 0
    val_batches := 1
    kl_weight := hp.kl_weight_start
    encBackwards := 0
    decBackwards := 0
    encSteps := 0
    decSteps := 0 }

/-- The epoch-start controller block (lines 532-543) with the normalized MI
value `m = mi_curr / val_batches` already computed: if not aggressive, or the
MI failed to improve, mark the MI stable and decrement the patience; once the
patience is non-positive, leave aggressive mode; finally store `m` as
`mi_prev` and reset the accumulator and the validation-batch counter. -/
def epochTransition (s : TrainState) (m : ℚ) : TrainState :=
  let s1 := if s.aggressive = false ∨ m < s.mi_prev then
      { s with stable_mi := true, mi_patience := s.mi_patience - 1 }
    else s
  let s2 := if s1.mi_patience ≤ 0 then { s1 with aggressive := false } else s1
  { s2 with mi_prev := m, mi_curr := 0, val_batches := 0 }

/-- Lines 532-543 including the division `self.mi_curr / self.val_batches`.
When `val_batches = 0`, `mi_curr` is still the integer `0` it was reset to
(only `validation_step` adds to it, and that also increments `val_batches`),
so Python evaluates `0 / 0` on integers and raises `ZeroDivisionError`:
embedded as `none`. -/
def epochStartUpd (s : TrainState) : Option TrainState :=
  if s.val_batches = 0 then none
  else some (epochTransition s (s.mi_curr / (s.val_batches : ℚ)))

/-- `x % y` with Python semantics: `y = 0` raises `ZeroDivisionError`. -/
def pymod (a b : ℕ) : Option ℕ := if b = 0 then none else some (a % b)

/-- The aggressive inner loop body over the remaining iteration indices
(lines 560-581).  Arguments after the index list: accumulated
`burn_num_words`, `burn_pre_loss`, `burn_cur_loss`, the training state, and
the last executed iteration index (for the `i` the source keeps after the
loop).  Each iteration backpropagates the loss into the encoder optimizer and
steps it; every `inner_iter // 10` iterations the running loss-per-word is
compared with the previous window and the loop breaks if it got worse. -/
def innerFold (hp : Hyper) (fwd : ℕ → ℚ × ℚ) (sents_len batch_size : ℕ) :
    List ℕ → ℕ → ℚ → ℚ → TrainState → ℕ → Option (TrainState × ℕ)
  | [], _, _, _, s, ilast => some (s, ilast)
  | i :: rest, burn_num_words, burn_pre_loss, burn_cur_loss, s, _ =>
    let L := fwd i
    let loss := L.1 + s.kl_weight * L.2
    let s := { s with encBackwards := s.encBackwards + 1, encSteps := s.encSteps + 1 }
    let burn_num_words := burn_num_words + (sents_len - 1) * batch_size
    let burn_cur_loss := burn_cur_loss + loss
    match pymod i (hp.inner_iter / 10) with
    | none => none
    | some r =>
      if r = 0 then
        let burn_cur_loss := burn_cur_loss / (burn_num_words : ℚ)
        if burn_pre_loss - burn_cur_loss < 0 then some (s, i)
        else innerFold hp fwd sents_len batch_size rest 0 burn_cur_loss 0 s i
      else innerFold hp fwd sents_len batch_size rest burn_num_words burn_pre_loss
        burn_cur_loss s i

/-- Lines 554-581: `i = 0`, then `for i in range(1, inner_iter + 1)` when in
aggressive mode, with `burn_pre_loss = 1e4`.  Returns the state and the final
`i`. -/
def innerLoop (hp : Hyper) (fwd : ℕ → ℚ × ℚ) (sents_len batch_size : ℕ)
    (s : TrainState) : Option (TrainState × ℕ) :=
  if s.aggressive then
    innerFold hp fwd sents_len batch_size (List.range' 1 hp.inner_iter) 0 10000 0 s 0
  else some (s, 0)

/-- Lines 583-603: the outer joint pass.  `manual_backward(loss, encoder_opt)`
and `encoder_opt.step()` run only when not aggressive;
`manual_backward(loss, decoder_opt)` and `decoder_opt.step()` always run;
finally `kl_weight = min(1.0, kl_weight + anneal_rate)` — once per outer
step. -/
def klAnneal (anneal_rate w : ℚ) : ℚ := min 1 (w + anneal_rate)

/-- The program executes `min(1.0, kl_weight + anneal_rate)` in IEEE-754
binary64, not in exact arithmetic.  `klAnneal` above is the exact-rational
value-level update; the following definitions model the hardware arithmetic
exactly.  A binary64 double is a rational number, and each addition rounds
the exact sum to 53 significant bits with round-to-nearest, ties-to-even.
`roundNearestEven` rounds a rational to the nearest integer, breaking ties
towards the even integer. -/
def roundNearestEven (y : ℚ) : ℤ :=
  if y - (⌊y⌋ : ℚ) < 1 / 2 then ⌊y⌋
  else if 1 / 2 < y - (⌊y⌋ : ℚ) then ⌊y⌋ + 1
  else if ⌊y⌋ % 2 = 0 then ⌊y⌋ else ⌊y⌋ + 1

/-- Round a rational to the nearest binary64 double.  Normal range only:
every value arising in the kl_weight trace has exponent far inside
[-1022, 1023], so overflow and subnormals never occur there. -/
def rnd64 (x : ℚ) : ℚ :=
  if x = 0 then 0
  else
    (if x < 0 then (-1 : ℚ) else 1) *
      (((roundNearestEven (|x| * (2 : ℚ) ^ ((52 : ℤ) - Int.log 2 |x|))) : ℚ) *
        (2 : ℚ) ^ (Int.log 2 |x| - 52))

/-- Correctly rounded binary64 addition of two doubles. -/
def addF (a b : ℚ) : ℚ := rnd64 (a + b)

/-- The binary64 double denoted by the source literal `0.1`
(`kl_anneal_rate` default, `lm_vae.py` argparse): the exact rational 1/10
rounded to 53 bits, namely 3602879701896397 / 2^55. -/
def rate01 : ℚ := rnd64 (1 / 10)

/-- Line 603 as executed in binary64: `kl_weight = min(1.0, kl_weight +
anneal_rate)` with a floating-point addition.  `1.0` and every reached
kl_weight value are exact doubles, so only the addition rounds; the `min`
comparison is exact. -/
def klAnnealF (anneal_rate w : ℚ) : ℚ := min 1 (addF w anneal_rate)

def outerStep (hp : Hyper) (s : TrainState) : TrainState :=
  let s1 := if s.aggressive then s
    else { s with encBackwards := s.encBackwards + 1, encSteps := s.encSteps + 1 }
  let s2 := { s1 with decBackwards := s1.decBackwards + 1, decSteps := s1.decSteps + 1 }
  { s2 with kl_weight := klAnneal hp.anneal_rate s2.kl_weight }

/-- Lines 532-550 before the inner loop: the epoch-start controller block on
`batch_idx == 0`, then the `current_epoch > max_aggressive_epochs - 1` ceiling
(Python integer arithmetic: the comparison is over ℤ, so
`max_aggressive_epochs = 0` gives the bound `-1`).  The `global_step == 0`
scheduler-cooldown initialisation only touches the external scheduler objects
and is not part of the state. -/
def preInnerState (hp : Hyper) (batch_idx current_epoch : ℕ) (s : TrainState) :
    Option TrainState :=
  let s1? := if batch_idx = 0 then epochStartUpd s else some s
  s1?.map (fun s1 =>
    if (current_epoch : ℤ) > (hp.max_aggressive_epochs : ℤ) - 1 then
      { s1 with aggressive := false }
    else s1)

/-- `lm_VAE.training_step` (lines 530-612): epoch-start controller update,
aggressive ceiling, inner aggressive loop, then the outer joint step. -/
def training_step (hp : Hyper) (fwd : ℕ → ℚ × ℚ) (sents_len batch_size : ℕ)
    (batch_idx current_epoch : ℕ) (s : TrainState) : Option TrainState :=
  (preInnerState hp batch_idx current_epoch s).bind (fun s2 =>
    (innerLoop hp fwd sents_len batch_size s2).map (fun p => outerStep hp p.1))

/-- `lm_VAE.validation_step` (lines 614-638): the state effect is
`mi_curr += mi; val_batches += 1` (`mi` is the batch's MI estimate). -/
def validation_step (mi : ℚ) (s : TrainState) : TrainState :=
  { s with mi_curr := s.mi_curr + mi, val_batches := s.val_batches + 1 }

/-! ### `lm_VAE.decode` (lines 649-666) -/

/-- `lm_VAE.decode`: encode, reparameterize (both folded into the
`steps`/`h0s` arguments), then dispatch on the decoding strategy.  When
`decoding_strategy` is `None` the configured `self.decoding_strategy` is used.
If no branch matches, the source executes `return text_sample` with
`text_sample` never assigned, raising `UnboundLocalError`: embedded as
`none`. -/
def decode {H : Type} (steps : List (StepF H)) (lse : List ℚ → ℚ)
    (V startTok endTok : ℕ) (dH : H) (h0s : List H) (sampler : ℕ → List ℚ → ℕ)
    (itos : ℕ → String) (decoding_strategy : Option String) (self_strategy : String)
    (beam_length : ℕ) : Option (List String) :=
  let strat := decoding_strategy.getD self_strategy
  if strat = "beam_search" then
    some (beam_search_decode steps lse V startTok endTok dH h0s beam_length 30 itos)
  else if strat = "greedy" then
    some (greedy_decode steps startTok endTok h0s 30 itos)
  else if strat = "sample" then
    some (sample_decode steps sampler startTok endTok h0s 30 itos)
  else none

/-- Iterated epoch-start transitions under a stream of normalized MI
values. -/
def epochIter (ms : ℕ → ℚ) (s : TrainState) : ℕ → TrainState
  | 0 => s
  | k + 1 => epochTransition (epochIter ms s k) (ms k)

/-- The beam-loop invariant: the completed list never exceeds the beam width,
and while it is not yet full the live list is nonempty and together they hold
at most `K` hypotheses. -/
def beamInv {H : Type} (K : ℕ) (live completed : List (BeamSearchNode H)) : Prop :=
  completed.length ≤ K ∧
    (completed.length < K → 1 ≤ live.length ∧ live.length + completed.length ≤ K)

/-! ### Concrete instances used to exercise the theorems -/

/-- A tiny `itos` table: 0 = start, 1 = end, 2 = the word "a". -/
def itosW : ℕ → String := fun n =>
  if n = 2 then "a" else if n = 1 then "</s>" else "<s>"

/-- A decoder step that always ranks token 2 ("a") highest over a 3-word
vocabulary. -/
def stepABf : StepF Unit := fun _ _ => ((), [0, 0, 1])

/-- One-element batch whose decoder always ranks token 2 ("a") highest. -/
def stepsAB : List (StepF Unit) := [stepABf]

/-- One-element batch whose decoder immediately ranks the end token highest. -/
def stepsEnd : List (StepF Unit) := [fun _ _ => ((), [0, 1])]

def fwd0 : ℕ → ℚ × ℚ := fun _ => (1, 1)

def hpW : Hyper :=
  { inner_iter := 10
    anneal_rate := 1 / 10
    kl_weight_start := 0
    aggressive0 := true
    aggressive_patience := 2
    max_aggressive_epochs := 100 }

/-- `hpW` with `inner_iter = 0`: the inner `for` loop body never runs. -/
def hp0 : Hyper := { hpW with inner_iter := 0 }

/-- A strictly decreasing, initially negative MI stream. -/
def msW : ℕ → ℚ := fun k => -1 - k

def sAgg : TrainState := initState hpW

def sNA : TrainState := { initState hpW with aggressive := false }

/-- The state after one non-aggressive `training_step` on `sNA` with
`batch_idx = 1`. -/
def sNAafter : TrainState :=
  { aggressive := false
    stable_mi := false
    mi_patience := 2
    mi_prev := 0
    mi_curr := 0
    val_batches := 1
    kl_weight := 1 / 10
    encBackwards := 1
    decBackwards := 1
    encSteps := 1
    decSteps := 1 }

/-! ### Lemmas and theorems -/

/-- `getD` of a `map` at an in-range index. -/
theorem getD_map {α β : Type _} (f : α → β) (l : List α) (i : ℕ) (d : α) (d' : β)
    (h : i < l.length) : (l.map f).getD i d' = f (l.getD i d) := by
  induction l generalizing i with
  | nil => simp at h
  | cons x xs ih =>
    cases i with
    | zero => simp [List.getD]
    | succ j =>
      simp only [List.length_cons, Nat.succ_lt_succ_iff] at h
      simpa [List.getD] using ih j h

/-- `getD` of a `zip` at an in-range index. -/
theorem getD_zip {α β : Type _} (l₁ : List α) (l₂ : List β) (i : ℕ) (d₁ : α) (d₂ : β)
    (h₁ : i < l₁.length) (h₂ : i < l₂.length) :
    (l₁.zip l₂).getD i (d₁, d₂) = (l₁.getD i d₁, l₂.getD i d₂) := by
  induction l₁ generalizing l₂ i with
  | nil => simp at h₁
  | cons x xs ih =>
    cases l₂ with
    | nil => simp at h₂
    | cons y ys =>
      cases i with
      | zero => simp [List.getD]
      | succ j =>
        simp only [List.length_cons, Nat.succ_lt_succ_iff] at h₁ h₂
        simpa [List.getD] using ih ys j h₁ h₂

/-- `getD` at an in-range index is `getElem`. -/
theorem getD_eq_getElem {α : Type _} (l : List α) (i : ℕ) (d : α) (h : i < l.length) :
    l.getD i d = l[i] := by
  induction l generalizing i with
  | nil => simp at h
  | cons x xs ih =>
    cases i with
    | zero => simp [List.getD]
    | succ j =>
      simp only [List.length_cons, Nat.succ_lt_succ_iff] at h
      simpa [List.getD] using ih j h

/-- `getD` of a replicate at an in-range index. -/
theorem getD_replicate {α : Type _} (n i : ℕ) (a d : α) (h : i < n) :
    (List.replicate n a).getD i d = a := by
  induction n generalizing i with
  | zero => omega
  | succ m ih =>
    cases i with
    | zero => simp [List.getD]
    | succ j => simpa [List.getD, List.replicate] using ih j (by omega)

/-! ### Maximum selection (the embedding of `torch.argmax` / `torch.topk`)

`torch.argmax` returns the index of a maximal entry; `torch.topk` returns the
`k` largest entries with their flat indices, in descending order.  Tie-breaking
is embedded deterministically: the earliest maximal index wins, matching the
stable descending sort used for completed hypotheses (`sorted(...,
reverse=True)` in Python is stable, so among equal keys the earlier element
comes first). -/

theorem insertDesc_length (p : ℕ × ℚ) (l : List (ℕ × ℚ)) :
    (insertDesc p l).length = l.length + 1 := by
  induction l with
  | nil => simp [insertDesc]
  | cons q qs ih =>
    by_cases h : q.2 ≤ p.2 <;> simp [insertDesc, h, ih]

theorem sortDesc_length (l : List (ℕ × ℚ)) : (sortDesc l).length = l.length := by
  induction l with
  | nil => simp [sortDesc]
  | cons q qs ih => simp [sortDesc, insertDesc_length, List.foldr] at ih ⊢; omega

theorem topk_length (k : ℕ) (scores : List ℚ) :
    (topk k scores).length = min k scores.length := by
  simp [topk, sortDesc_length]

theorem argmaxIdx_lt_length (l : List ℚ) (h : l ≠ []) : argmaxIdx l < l.length := by
  induction l with
  | nil => simp at h
  | cons x xs ih =>
    cases xs with
    | nil => simp [argmaxIdx]
    | cons y ys =>
      by_cases hc : listMax (y :: ys) ≤ x
      · simp [argmaxIdx, hc]
      · have := ih (by simp)
        simp only [List.length_cons] at this
        simp only [argmaxIdx, hc, if_false, List.length_cons]
        omega

theorem listMax_cons_cons (x y : ℚ) (ys : List ℚ) :
    listMax (x :: y :: ys) = max x (listMax (y :: ys)) := rfl

/-- The head of the stable descending sort of `enumFrom n l` is the first
maximal entry of `l`, at offset index `n + argmaxIdx l`. -/
theorem sortDesc_enumFrom_head (n : ℕ) (l : List ℚ) (h : l ≠ []) :
    (sortDesc (l.enumFrom n)).head? = some (n + argmaxIdx l, listMax l) := by
  induction l generalizing n with
  | nil => simp at h
  | cons x xs ih =>
    cases xs with
    | nil => simp [sortDesc, insertDesc, argmaxIdx, listMax]
    | cons y ys =>
      have hne : (y :: ys) ≠ [] := by simp
      have ihy := ih (n := n + 1) hne
      have hsd : sortDesc ((x :: y :: ys).enumFrom n)
          = insertDesc (n, x) (sortDesc ((y :: ys).enumFrom (n + 1))) := rfl
      obtain ⟨p, tl, hpt⟩ : ∃ p tl, sortDesc ((y :: ys).enumFrom (n + 1)) = p :: tl := by
        rcases hsort : sortDesc ((y :: ys).enumFrom (n + 1)) with _ | ⟨p, tl⟩
        · have := sortDesc_length ((y :: ys).enumFrom (n + 1))
          rw [hsort] at this; simp at this
        · exact ⟨p, tl, rfl⟩
      rw [hpt] at ihy
      simp only [List.head?] at ihy
      have hp : p = (n + 1 + argmaxIdx (y :: ys), listMax (y :: ys)) := by
        injection ihy
      by_cases hc : listMax (y :: ys) ≤ x
      · have : argmaxIdx (x :: y :: ys) = 0 := by simp [argmaxIdx, hc]
        have hm : listMax (x :: y :: ys) = x := by
          simp [listMax_cons_cons, max_eq_left hc]
        rw [hsd, hpt]
        simp [insertDesc, hp, hc, this, hm]
      · have hlt : x < listMax (y :: ys) := lt_of_not_le hc
        have : argmaxIdx (x :: y :: ys) = argmaxIdx (y :: ys) + 1 := by
          simp [argmaxIdx, hc]
        have hm : listMax (x :: y :: ys) = listMax (y :: ys) := by
          simp [listMax_cons_cons, max_eq_right (le_of_lt hlt)]
        rw [hsd, hpt]
        have hple : ¬ p.2 ≤ x := by rw [hp]; simpa using hc
        simp only [insertDesc, hple, if_false]
        simp [hp, this, hm]; omega

/-- `topk 1` returns exactly the first maximal entry (the `torch.argmax`
choice), provided the score list is nonempty. -/
theorem topk_one (l : List ℚ) (h : l ≠ []) :
    topk 1 l = [(argmaxIdx l, listMax l)] := by
  have hh := sortDesc_enumFrom_head 0 l h
  have : l.enum = l.enumFrom 0 := rfl
  rcases hsort : sortDesc (l.enumFrom 0) with _ | ⟨p, tl⟩
  · rw [hsort] at hh; simp at hh
  · rw [hsort] at hh
    simp only [List.head?] at hh
    have hp : p = (argmaxIdx l, listMax l) := by injection hh; simp_all
    simp [topk, this, hsort, hp]

/-- Adding the same constant to every score does not change the argmax
(the reason beam search's `log_softmax + prev_logp` and greedy's raw-logit
argmax pick the same token when only one hypothesis is live). -/
theorem argmaxIdx_map_add (l : List ℚ) (c : ℚ) :
    argmaxIdx (l.map (fun v => v + c)) = argmaxIdx l := by
  have hmax : ∀ m : List ℚ, m ≠ [] → listMax (m.map (fun v => v + c)) = listMax m + c := by
    intro m hm
    induction m with
    | nil => simp at hm
    | cons x xs ih =>
      cases xs with
      | nil => simp [listMax]
      | cons y ys =>
        have := ih (by simp)
        simp only [List.map_cons] at this ⊢
        rw [listMax_cons_cons, listMax_cons_cons, this, max_add_add_right]
  induction l with
  | nil => rfl
  | cons x xs ih =>
    cases xs with
    | nil => rfl
    | cons y ys =>
      have h1 := hmax (y :: ys) (by simp)
      simp only [List.map_cons] at h1 ⊢
      rw [argmaxIdx, argmaxIdx, h1]
      by_cases hc : listMax (y :: ys) ≤ x
      · simp [hc, add_le_add_iff_right]
      · have : ¬ listMax (y :: ys) + c ≤ x + c := by simpa using hc
        simp only [List.map_cons] at ih
        simp [hc, this, ih]

/-! ### The decoder transition model

`LSTM_Decoder.greedy_decode`, `sample_decode` and `beam_search_decode` all run
the same per-step computation: embed the previous token, concatenate `z`, one
LSTM step from the carried `(h, c)` state, then `linear_out` to logits.  That
whole computation is the abstract transition `StepF`.  A batch is a list of
per-element transitions (each element has its own `z` slice) plus a list of
initial hidden states (`c_init = linear_in z`, `h_init = tanh c_init`). -/

theorem greedyIter_lengths {H : Type} (steps : List (StepF H)) (endTok : ℕ)
    (s : GreedyState H) (n : ℕ) (h1 : steps.length = n) (h2 : s.hiddens.length = n)
    (h3 : s.inputs.length = n) (h4 : s.mask.length = n) (h5 : s.decoded.length = n) :
    (greedyIter steps endTok s).hiddens.length = n ∧
    (greedyIter steps endTok s).inputs.length = n ∧
    (greedyIter steps endTok s).mask.length = n ∧
    (greedyIter steps endTok s).decoded.length = n ∧
    (greedyIter steps endTok s).length_c = s.length_c + 1 := by
  simp [greedyIter, h1, h2, h3, h4, h5]

theorem getD_false_of_any_false (mask : List Bool) (i : ℕ) (hlen : i < mask.length)
    (h : (mask.any fun b => b) = false) : mask.getD i false = false := by
  induction mask generalizing i with
  | nil => simp at hlen
  | cons b bs ih =>
    simp only [List.any_cons, Bool.or_eq_false_iff] at h
    cases i with
    | zero => simpa [List.getD] using h.1
    | succ j =>
      simpa [List.getD] using ih j (by simpa using hlen) h.2

/-- Element `i` of the batched greedy loop equals the per-element unrolling
`greedyElem`, with the still-unused step budget `max_length - length_c`. -/
theorem greedyLoop_elem {H : Type} (dH : H) (steps : List (StepF H)) (endTok : ℕ)
    (max_length : ℕ) (n : ℕ) :
    ∀ (fuel : ℕ) (s : GreedyState H) (i : ℕ),
      steps.length = n → s.hiddens.length = n → s.inputs.length = n →
      s.mask.length = n → s.decoded.length = n → i < n →
      max_length ≤ s.length_c + fuel →
      (greedyLoop steps endTok max_length fuel s).decoded.getD i [] =
        s.decoded.getD i [] ++
          (if s.mask.getD i false then
            greedyElem (steps.getD i dStep) endTok (s.hiddens.getD i dH)
              (s.inputs.getD i 0) (max_length - s.length_c)
          else []) := by
  intro fuel
  induction fuel with
  | zero =>
    intro s i h1 h2 h3 h4 h5 hi hf
    have : max_length - s.length_c = 0 := by omega
    simp [greedyLoop, this, greedyElem]
  | succ f ih =>
    intro s i h1 h2 h3 h4 h5 hi hf
    by_cases hcond : (s.mask.any fun b => b) = true ∧ s.length_c < max_length
    · rw [greedyLoop, if_pos hcond]
      obtain ⟨g1, g2, g3, g4, g5⟩ := greedyIter_lengths steps endTok s n h1 h2 h3 h4 h5
      have ihs := ih (greedyIter steps endTok s) i h1 g1 g2 g3 g4 hi (by omega)
      rw [ihs]
      -- unfold the components of the iterated state at index i
      have hzf : i < (steps.zip (s.hiddens.zip s.inputs)).length := by
        simp [h1, h2, h3]; omega
      have hstepped :
          ((steps.zip (s.hiddens.zip s.inputs)).map (fun fp => fp.1 fp.2.1 fp.2.2)).getD i
              (dH, []) =
            (steps.getD i dStep) (s.hiddens.getD i dH) (s.inputs.getD i 0) := by
        rw [getD_map _ _ _ (dStep, (dH, 0)) _ hzf]
        rw [getD_zip _ _ _ _ _ (by omega) (by simp [h2, h3]; omega)]
        first
        | rfl
        | (rw [getD_zip _ _ _ _ _ (by omega) (by omega)])
      set p := (steps.getD i dStep) (s.hiddens.getD i dH) (s.inputs.getD i 0) with hp
      have hlenstepped : ((steps.zip (s.hiddens.zip s.inputs)).map
          (fun fp => fp.1 fp.2.1 fp.2.2)).length = n := by
        simp [h1, h2, h3]
      have hmaxidx :
          (((steps.zip (s.hiddens.zip s.inputs)).map (fun fp => fp.1 fp.2.1 fp.2.2)).map
              (fun q => argmaxIdx q.2)).getD i 0 = argmaxIdx p.2 := by
        rw [getD_map _ _ _ (dH, []) _ (by omega), hstepped]
      have hhid :
          (((steps.zip (s.hiddens.zip s.inputs)).map (fun fp => fp.1 fp.2.1 fp.2.2)).map
              Prod.fst).getD i dH = p.1 := by
        rw [getD_map _ _ _ (dH, []) _ (by omega), hstepped]
      have hmask :
          (greedyIter steps endTok s).mask.getD i false =
            (if argmaxIdx p.2 = endTok then false else s.mask.getD i false) := by
        show ((s.mask.zip _).map _).getD i false = _
        rw [getD_map _ _ _ (false, 0) _ (by simp [h4, hlenstepped]; omega)]
        rw [getD_zip _ _ _ _ _ (by omega) (by rw [List.length_map]; omega)]
        simp only [hmaxidx]
      have hdec :
          (greedyIter steps endTok s).decoded.getD i [] =
            (if s.mask.getD i false then s.decoded.getD i [] ++ [argmaxIdx p.2]
             else s.decoded.getD i []) := by
        show (((s.decoded.zip s.mask).zip _).map _).getD i [] = _
        rw [getD_map _ _ _ (([], false), 0) _
          (by simp [h4, h5, hlenstepped]; omega)]
        rw [getD_zip _ _ _ _ _ (by simp [h4, h5]; omega) (by rw [List.length_map]; omega)]
        rw [getD_zip _ _ _ _ _ (by omega) (by omega)]
        simp only [hmaxidx]
      have hinp : (greedyIter steps endTok s).inputs.getD i 0 = argmaxIdx p.2 := hmaxidx
      have hhid' : (greedyIter steps endTok s).hiddens.getD i dH = p.1 := hhid
      rw [hdec, hmask, hinp, hhid', g5]
      have hml : max_length - s.length_c = (max_length - (s.length_c + 1)) + 1 := by
        omega
      rw [hml]
      rw [show greedyElem (steps.getD i dStep) endTok (s.hiddens.getD i dH)
            (s.inputs.getD i 0) ((max_length - (s.length_c + 1)) + 1)
          = argmaxIdx p.2 :: (if argmaxIdx p.2 = endTok then []
              else greedyElem (steps.getD i dStep) endTok p.1 (argmaxIdx p.2)
                (max_length - (s.length_c + 1))) from rfl]
      by_cases hm : s.mask.getD i false = true
      · by_cases he : argmaxIdx p.2 = endTok
        · simp only [if_pos hm, if_pos he]
          simp only [if_neg (show ¬(false = true) by simp)]
          simp
        · simp only [if_pos hm, if_neg he]
          simp [List.append_assoc]
      · have hm' : s.mask.getD i false = false := by
          revert hm; cases s.mask.getD i false <;> simp
        have hcondf : (if argmaxIdx p.2 = endTok then false else s.mask.getD i false)
            = false := by
          rw [hm']; apply ite_self
        simp only [hm', hcondf]
        simp
    · rw [greedyLoop, if_neg hcond]
      rcases Decidable.not_and_iff_or_not.mp hcond with hany | hlc
      · have hmf : s.mask.getD i false = false :=
          getD_false_of_any_false s.mask i (by omega) (by simpa using hany)
        rw [hmf]
        simp
      · have h0 : max_length - s.length_c = 0 := by omega
        rw [h0]
        simp [greedyElem]

/-- Element `i` of `greedyTokens` is the per-element greedy unrolling with
budget `max_length - 1` (the loop counter starts at 1). -/
theorem greedyTokens_elem {H : Type} (dH : H) (steps : List (StepF H))
    (startTok endTok : ℕ) (h0s : List H) (max_length : ℕ) (i : ℕ)
    (hlen : steps.length = h0s.length) (hi : i < h0s.length) :
    (greedyTokens steps startTok endTok h0s max_length).getD i [] =
      greedyElem (steps.getD i dStep) endTok (h0s.getD i dH) startTok (max_length - 1) := by
  unfold greedyTokens
  rw [greedyLoop_elem dH steps endTok max_length h0s.length max_length _ i hlen rfl
    (by simp) (by simp) (by simp) hi (by omega)]
  dsimp only
  rw [getD_replicate _ _ _ _ hi, getD_replicate _ _ _ _ hi, getD_replicate _ _ _ _ hi]
  simp

/-! ### `LSTM_Decoder.sample_decode` (lines 383-434)

Identical control structure to `greedy_decode`; the only difference is that the
next token comes from a categorical draw over `softmax(logits)` instead of the
argmax.  The draw is abstracted as a `sampler` function receiving the step
counter and the logits (the softmax is a fixed monotone reparametrisation of
the logits, so passing logits loses no generality for the claims below, which
never inspect the sampled values). -/

/-! ### Properties of per-element greedy decoding (claim C4) -/

theorem greedyElem_length_le {H : Type} (f : StepF H) (endTok : ℕ) :
    ∀ (fuel : ℕ) (h : H) (tok : ℕ), (greedyElem f endTok h tok fuel).length ≤ fuel := by
  intro fuel
  induction fuel with
  | zero => intro h tok; simp [greedyElem]
  | succ m ih =>
    intro h tok
    rw [greedyElem]
    by_cases he : argmaxIdx (f h tok).2 = endTok
    · simp [he]
    · simpa [he] using ih (f h tok).1 (argmaxIdx (f h tok).2)

/-- The end token never occurs strictly before the last emitted token. -/
theorem greedyElem_end_not_before_last {H : Type} (f : StepF H) (endTok : ℕ) :
    ∀ (fuel : ℕ) (h : H) (tok : ℕ),
      endTok ∉ (greedyElem f endTok h tok fuel).dropLast := by
  intro fuel
  induction fuel with
  | zero => intro h tok; simp [greedyElem]
  | succ m ih =>
    intro h tok
    rw [greedyElem]
    by_cases he : argmaxIdx (f h tok).2 = endTok
    · simp [he]
    · simp only [he, if_false]
      rcases hrest : greedyElem f endTok (f h tok).1 (argmaxIdx (f h tok).2) m with _ | ⟨a, as⟩
      · simp
      · rw [List.dropLast_cons_of_ne_nil (by simp)]
        intro hmem
        rcases List.mem_cons.mp hmem with h1 | h2
        · exact he h1.symm
        · have := ih (f h tok).1 (argmaxIdx (f h tok).2)
          rw [hrest] at this
          exact this h2

/-- A greedy unrolling either ends with the end token or used its full
budget. -/
theorem greedyElem_last_or_full {H : Type} (f : StepF H) (endTok : ℕ) :
    ∀ (fuel : ℕ) (h : H) (tok : ℕ),
      (greedyElem f endTok h tok fuel).getLast? = some endTok ∨
        (greedyElem f endTok h tok fuel).length = fuel := by
  intro fuel
  induction fuel with
  | zero => intro h tok; right; simp [greedyElem]
  | succ m ih =>
    intro h tok
    rw [greedyElem]
    by_cases he : argmaxIdx (f h tok).2 = endTok
    · left; simp [he]
    · simp only [he, if_false]
      rcases ih (f h tok).1 (argmaxIdx (f h tok).2) with hlast | hfull
      · left
        rcases hrest : greedyElem f endTok (f h tok).1 (argmaxIdx (f h tok).2) m with _ | ⟨a, as⟩
        · rw [hrest] at hlast; simp at hlast
        · rw [hrest] at hlast
          rw [List.getLast?_cons_cons]
          exact hlast
      · right; simp [hfull]

/-! ### Beam search with `K = 1` is a greedy unrolling (claim C3) -/

/-- With a single live hypothesis and no completed ones, one beam iteration
picks exactly the argmax token of the raw logits: `log_softmax` subtracts the
same `lse` constant from every logit and the running log-probability adds the
same constant to every candidate, neither of which moves the argmax. -/
theorem beamLoopBody_one {H : Type} (stepf : StepF H) (lse : List ℚ → ℚ) (V endTok : ℕ)
    (dH : H) (n : BeamSearchNode H) (t : ℕ)
    (hstep : (stepf n.h n.wordid).2.length = V) (hV : 1 ≤ V) :
    beamLoopBody stepf lse V 1 endTok dH [n] [] t =
      (if argmaxIdx (stepf n.h n.wordid).2 = endTok then
        ([], [BeamSearchNode.mk (stepf n.h n.wordid).1 (some n)
          (argmaxIdx (stepf n.h n.wordid).2)
          (listMax ((logSoftmax lse (stepf n.h n.wordid).2).map (fun v => v + n.logp))) t])
      else
        ([BeamSearchNode.mk (stepf n.h n.wordid).1 (some n)
          (argmaxIdx (stepf n.h n.wordid).2)
          (listMax ((logSoftmax lse (stepf n.h n.wordid).2).map (fun v => v + n.logp))) t],
          [])) := by
  have hne : (stepf n.h n.wordid).2 ≠ [] := by
    intro hnil
    rw [hnil] at hstep
    simp at hstep
    omega
  have hfsEq : (logSoftmax lse (stepf n.h n.wordid).2).map (fun v => v + n.logp) =
      (stepf n.h n.wordid).2.map
        (fun v => v + (n.logp - lse (stepf n.h n.wordid).2)) := by
    unfold logSoftmax
    rw [List.map_map]
    congr 1
    funext v
    simp [Function.comp]
    ring
  have hfsne : (logSoftmax lse (stepf n.h n.wordid).2).map (fun v => v + n.logp) ≠ [] := by
    rw [hfsEq]
    simpa using hne
  have hargeq : argmaxIdx ((logSoftmax lse (stepf n.h n.wordid).2).map (fun v => v + n.logp))
      = argmaxIdx (stepf n.h n.wordid).2 := by
    rw [hfsEq, argmaxIdx_map_add]
  have harglt : argmaxIdx (stepf n.h n.wordid).2 < V := by
    have := argmaxIdx_lt_length (stepf n.h n.wordid).2 hne
    omega
  unfold beamLoopBody
  simp only [List.map_cons, List.map_nil, List.zip_cons_cons, List.zip_nil_right,
    List.flatMap_cons, List.flatMap_nil, List.append_nil, List.length_nil, Nat.sub_zero]
  rw [topk_one _ hfsne, hargeq]
  simp only [List.foldl_cons, List.foldl_nil]
  rw [Nat.div_eq_of_lt harglt, Nat.mod_eq_of_lt harglt]
  by_cases he : argmaxIdx (stepf n.h n.wordid).2 = endTok
  · simp [he, List.getD]
  · simp [he, List.getD]

/-- The beam loop with beam width 1 started on a single non-root live
hypothesis extends the hypothesis chain exactly like the greedy unrolling
(as long as the greedy continuation never re-emits the start token, which
would truncate the back-trace). -/
theorem beamLoop_one {H : Type} (stepf : StepF H) (lse : List ℚ → ℚ) (V startTok endTok : ℕ)
    (dH : H) (hstep : ∀ (h : H) (tok : ℕ), (stepf h tok).2.length = V) (hV : 1 ≤ V) :
    ∀ (fuel : ℕ) (n : BeamSearchNode H) (t : ℕ),
      n.wordid ≠ startTok →
      startTok ∉ greedyElem stepf endTok n.h n.wordid fuel →
      utteranceOf startTok (bestNode dH
          ((beamLoop stepf lse V 1 endTok dH fuel [n] [] t).2 ++
            (beamLoop stepf lse V 1 endTok dH fuel [n] [] t).1)) =
        (backtraceAux startTok (some n)).reverse ++
          greedyElem stepf endTok n.h n.wordid fuel := by
  intro fuel
  induction fuel with
  | zero =>
    intro n t hw hmem
    cases n with
    | mk nh np nw nlp nl =>
      simp only [BeamSearchNode.wordid] at hw
      simp [beamLoop, bestNode, greedyElem, utteranceOf, backtraceAux, hw,
        BeamSearchNode.wordid, BeamSearchNode.prevNode]
  | succ m ih =>
    intro n t hw hmem
    rw [greedyElem] at hmem ⊢
    by_cases he : argmaxIdx (stepf n.h n.wordid).2 = endTok
    · simp only [he, if_true] at hmem ⊢
      rw [show beamLoop stepf lse V 1 endTok dH (m + 1) [n] [] t =
          ([], [BeamSearchNode.mk (stepf n.h n.wordid).1 (some n)
            (argmaxIdx (stepf n.h n.wordid).2)
            (listMax ((logSoftmax lse (stepf n.h n.wordid).2).map (fun v => v + n.logp)))
            (t + 1)]) from by
        rw [beamLoop, if_pos (by simp), beamLoopBody_one stepf lse V endTok dH n (t + 1)
          (hstep n.h n.wordid) hV, if_pos he]
        simp]
      simp only [List.append_nil, List.nil_append, bestNode]
      unfold utteranceOf
      simp [BeamSearchNode.wordid, BeamSearchNode.prevNode]
      exact he
    · simp only [he, if_false] at hmem ⊢
      have hw' : argmaxIdx (stepf n.h n.wordid).2 ≠ startTok := by
        intro hcontra
        exact hmem (by rw [hcontra]; exact List.mem_cons_self _ _)
      have hmem' : startTok ∉ greedyElem stepf endTok (stepf n.h n.wordid).1
          (argmaxIdx (stepf n.h n.wordid).2) m := by
        intro hcontra
        exact hmem (List.mem_cons_of_mem _ hcontra)
      rw [show beamLoop stepf lse V 1 endTok dH (m + 1) [n] [] t =
          beamLoop stepf lse V 1 endTok dH m
            [BeamSearchNode.mk (stepf n.h n.wordid).1 (some n)
              (argmaxIdx (stepf n.h n.wordid).2)
              (listMax ((logSoftmax lse (stepf n.h n.wordid).2).map (fun v => v + n.logp)))
              (t + 1)] [] (t + 1) from by
        rw [beamLoop, if_pos (by simp), beamLoopBody_one stepf lse V endTok dH n (t + 1)
          (hstep n.h n.wordid) hV, if_neg he]
        simp]
      rw [ih _ (t + 1) (by simpa [BeamSearchNode.wordid] using hw')
        (by simpa [BeamSearchNode.h, BeamSearchNode.wordid] using hmem')]
      have hbt2 : backtraceAux startTok (some (BeamSearchNode.mk (stepf n.h n.wordid).1
          (some n) (argmaxIdx (stepf n.h n.wordid).2)
          (listMax ((logSoftmax lse (stepf n.h n.wordid).2).map (fun v => v + n.logp)))
          (t + 1))) = argmaxIdx (stepf n.h n.wordid).2 :: backtraceAux startTok (some n) := by
        simp [backtraceAux, hw']
      rw [show (BeamSearchNode.mk (stepf n.h n.wordid).1 (some n)
          (argmaxIdx (stepf n.h n.wordid).2)
          (listMax ((logSoftmax lse (stepf n.h n.wordid).2).map (fun v => v + n.logp)))
          (t + 1)).h = (stepf n.h n.wordid).1 from rfl]
      rw [show (BeamSearchNode.mk (stepf n.h n.wordid).1 (some n)
          (argmaxIdx (stepf n.h n.wordid).2)
          (listMax ((logSoftmax lse (stepf n.h n.wordid).2).map (fun v => v + n.logp)))
          (t + 1)).wordid = argmaxIdx (stepf n.h n.wordid).2 from rfl]
      rw [hbt2]
      simp [List.append_assoc]

/-- Per-sequence beam search with beam width 1 computes exactly the greedy
unrolling with `max_length` steps (one more step than `greedy_decode` with the
same `max_length` performs, since the greedy loop counter starts at 1). -/
theorem beam_elem_one {H : Type} (stepf : StepF H) (lse : List ℚ → ℚ)
    (V startTok endTok : ℕ) (dH : H) (h0 : H)
    (hstep : ∀ (h : H) (tok : ℕ), (stepf h tok).2.length = V) (hV : 1 ≤ V)
    (L : ℕ) (hL : 1 ≤ L)
    (hns : startTok ∉ greedyElem stepf endTok h0 startTok L) :
    utteranceOf startTok (bestNode dH
        ((beamLoop stepf lse V 1 endTok dH L [BeamSearchNode.mk h0 none startTok 0 1] [] 0).2
          ++
          (beamLoop stepf lse V 1 endTok dH L [BeamSearchNode.mk h0 none startTok 0 1] []
            0).1)) =
      greedyElem stepf endTok h0 startTok L := by
  obtain ⟨m, rfl⟩ : ∃ m, L = m + 1 := ⟨L - 1, by omega⟩
  have hroot_h : (BeamSearchNode.mk h0 none startTok (0 : ℚ) 1).h = h0 := rfl
  have hroot_w : (BeamSearchNode.mk h0 none startTok (0 : ℚ) 1).wordid = startTok := rfl
  have hbody := beamLoopBody_one stepf lse V endTok dH
    (BeamSearchNode.mk h0 none startTok 0 1) 1 (by rw [hroot_h, hroot_w]; exact hstep h0 startTok) hV
  rw [hroot_h, hroot_w] at hbody
  rw [greedyElem] at hns ⊢
  by_cases he : argmaxIdx (stepf h0 startTok).2 = endTok
  · rw [show beamLoop stepf lse V 1 endTok dH (m + 1)
        [BeamSearchNode.mk h0 none startTok 0 1] [] 0 =
        ([], [BeamSearchNode.mk (stepf h0 startTok).1
          (some (BeamSearchNode.mk h0 none startTok 0 1))
          (argmaxIdx (stepf h0 startTok).2)
          (listMax ((logSoftmax lse (stepf h0 startTok).2).map
            (fun v => v + (BeamSearchNode.mk h0 none startTok (0 : ℚ) 1).logp))) 1]) from by
      rw [beamLoop, if_pos (by simp), hbody, if_pos he]
      simp]
    simp only [List.append_nil, List.nil_append, bestNode]
    unfold utteranceOf
    simp [BeamSearchNode.wordid, BeamSearchNode.prevNode, backtraceAux, he]
  · have hw' : argmaxIdx (stepf h0 startTok).2 ≠ startTok := by
      intro hcontra
      simp only [he, if_false] at hns
      exact hns (by rw [hcontra]; exact List.mem_cons_self _ _)
    have hmem' : startTok ∉ greedyElem stepf endTok (stepf h0 startTok).1
        (argmaxIdx (stepf h0 startTok).2) m := by
      intro hcontra
      simp only [he, if_false] at hns
      exact hns (List.mem_cons_of_mem _ hcontra)
    rw [show beamLoop stepf lse V 1 endTok dH (m + 1)
        [BeamSearchNode.mk h0 none startTok 0 1] [] 0 =
        beamLoop stepf lse V 1 endTok dH m
          [BeamSearchNode.mk (stepf h0 startTok).1
            (some (BeamSearchNode.mk h0 none startTok 0 1))
            (argmaxIdx (stepf h0 startTok).2)
            (listMax ((logSoftmax lse (stepf h0 startTok).2).map
              (fun v => v + (BeamSearchNode.mk h0 none startTok (0 : ℚ) 1).logp))) 1] [] 1
        from by
      rw [beamLoop, if_pos (by simp), hbody, if_neg he]
      simp]
    rw [beamLoop_one stepf lse V startTok endTok dH hstep hV m _ 1
      (by simpa [BeamSearchNode.wordid] using hw')
      (by simpa [BeamSearchNode.h, BeamSearchNode.wordid] using hmem')]
    simp only [he, if_false]
    rw [show (BeamSearchNode.mk (stepf h0 startTok).1
        (some (BeamSearchNode.mk h0 none startTok (0 : ℚ) 1))
        (argmaxIdx (stepf h0 startTok).2)
        (listMax ((logSoftmax lse (stepf h0 startTok).2).map
          (fun v => v + (BeamSearchNode.mk h0 none startTok (0 : ℚ) 1).logp))) 1).h =
      (stepf h0 startTok).1 from rfl]
    rw [show (BeamSearchNode.mk (stepf h0 startTok).1
        (some (BeamSearchNode.mk h0 none startTok (0 : ℚ) 1))
        (argmaxIdx (stepf h0 startTok).2)
        (listMax ((logSoftmax lse (stepf h0 startTok).2).map
          (fun v => v + (BeamSearchNode.mk h0 none startTok (0 : ℚ) 1).logp))) 1).wordid =
      argmaxIdx (stepf h0 startTok).2 from rfl]
    rw [show backtraceAux startTok (some (BeamSearchNode.mk (stepf h0 startTok).1
        (some (BeamSearchNode.mk h0 none startTok (0 : ℚ) 1))
        (argmaxIdx (stepf h0 startTok).2)
        (listMax ((logSoftmax lse (stepf h0 startTok).2).map
          (fun v => v + (BeamSearchNode.mk h0 none startTok (0 : ℚ) 1).logp))) 1)) =
      [argmaxIdx (stepf h0 startTok).2] from by
      simp [backtraceAux, hw']]
    simp

/-- The batched greedy loop leaves the number of batch elements unchanged. -/
theorem greedyLoop_decoded_length {H : Type} (steps : List (StepF H)) (endTok : ℕ)
    (max_length n : ℕ) :
    ∀ (fuel : ℕ) (s : GreedyState H),
      steps.length = n → s.hiddens.length = n → s.inputs.length = n →
      s.mask.length = n → s.decoded.length = n →
      (greedyLoop steps endTok max_length fuel s).decoded.length = n := by
  intro fuel
  induction fuel with
  | zero => intro s _ _ _ _ h5; simpa [greedyLoop] using h5
  | succ f ih =>
    intro s h1 h2 h3 h4 h5
    by_cases hcond : (s.mask.any fun b => b) = true ∧ s.length_c < max_length
    · rw [greedyLoop, if_pos hcond]
      obtain ⟨g1, g2, g3, g4, _⟩ := greedyIter_lengths steps endTok s n h1 h2 h3 h4 h5
      exact ih _ h1 g1 g2 g3 g4
    · rw [greedyLoop, if_neg hcond]; exact h5

theorem greedyTokens_length {H : Type} (steps : List (StepF H)) (startTok endTok : ℕ)
    (h0s : List H) (max_length : ℕ) (hlen : steps.length = h0s.length) :
    (greedyTokens steps startTok endTok h0s max_length).length = h0s.length := by
  unfold greedyTokens
  exact greedyLoop_decoded_length steps endTok max_length h0s.length max_length _ hlen rfl
    (by simp) (by simp) (by simp)

/-! ### Length bookkeeping of the beam-search loop (claim C8) -/

/-- Each of the `top-k` candidates is routed to exactly one of the two
hypothesis lists, so the fold grows the total length by one per candidate. -/
theorem route_fold_length {α γ : Type _} (mkNode : α → γ) (isEnd : α → Prop)
    [DecidablePred isEnd] :
    ∀ (picks : List α) (acc : List γ × List γ),
      ((picks.foldl (fun acc pk =>
          if isEnd pk then (acc.1, acc.2 ++ [mkNode pk])
          else (acc.1 ++ [mkNode pk], acc.2)) acc).1.length +
        (picks.foldl (fun acc pk =>
          if isEnd pk then (acc.1, acc.2 ++ [mkNode pk])
          else (acc.1 ++ [mkNode pk], acc.2)) acc).2.length) =
      acc.1.length + acc.2.length + picks.length := by
  intro picks
  induction picks with
  | nil => intro acc; simp
  | cons pk rest ih =>
    intro acc
    simp only [List.foldl_cons, List.length_cons]
    by_cases hc : isEnd pk
    · rw [if_pos hc, ih]
      simp; omega
    · rw [if_neg hc, ih]
      simp; omega

/-- The flattened score vector has one entry per (live hypothesis, vocabulary
word) pair. -/
theorem flatScores_length {H : Type} (stepf : StepF H) (lse : List ℚ → ℚ) (V : ℕ)
    (hstep : ∀ (h : H) (tok : ℕ), (stepf h tok).2.length = V) :
    ∀ (live : List (BeamSearchNode H)),
      (((live.map (fun nd => stepf nd.h nd.wordid)).zip live).flatMap
        (fun pn => (logSoftmax lse pn.1.2).map (fun v => v + pn.2.logp))).length =
      live.length * V := by
  intro live
  induction live with
  | nil => simp
  | cons nd rest ih =>
    simp only [List.map_cons, List.zip_cons_cons, List.flatMap_cons, List.length_append,
      List.length_map, List.length_cons]
    rw [ih]
    unfold logSoftmax
    simp [hstep]
    ring

/-- Total length accounting for one beam-loop body: the body distributes the
`min (K - len(completed)) (len(live) * V)` top candidates over the new live
and completed lists. -/
theorem beamLoopBody_lengths {H : Type} (stepf : StepF H) (lse : List ℚ → ℚ)
    (V K endTok : ℕ) (dH : H) (live completed : List (BeamSearchNode H)) (t : ℕ)
    (hstep : ∀ (h : H) (tok : ℕ), (stepf h tok).2.length = V) :
    (beamLoopBody stepf lse V K endTok dH live completed t).1.length +
      (beamLoopBody stepf lse V K endTok dH live completed t).2.length =
    completed.length + min (K - completed.length) (live.length * V) := by
  unfold beamLoopBody
  rw [route_fold_length
    (fun pk : ℕ × ℚ => BeamSearchNode.mk
      ((live.map (fun nd => stepf nd.h nd.wordid)).getD (pk.1 / V) (dH, [])).1
      (some (live.getD (pk.1 / V) (dNode dH))) (pk.1 % V) pk.2 t)
    (fun pk : ℕ × ℚ => pk.1 % V = endTok)]
  rw [topk_length, flatScores_length stepf lse V hstep live]
  simp

/-! ### `LSTM_Encoder.MutualInformation` (lines 57-104)

Matrices are lists of rows: `mean`, `logstd` have `x_batch` rows of `z_dim`
entries (the leading singleton layer dimension of the source's
`(1, x_batch, z_dim)` tensors is dropped; `x_batch = mean.shape[1]`,
`z_dim = mean.shape[2]`). -/

theorem sample_reparameterize_length (expQ : ℚ → ℚ) (mean logstd eps : List (List ℚ))
    (h1 : logstd.length = mean.length) (h2 : eps.length = mean.length) :
    (sample_reparameterize expQ mean logstd eps).length = mean.length := by
  simp [sample_reparameterize, h1, h2]

/-- Indexing into a concatenation of equal-length chunks. -/
theorem flatMap_const_length_getD {α β : Type _} (dB : β) (f : β → List α) (n : ℕ) :
    ∀ (l : List β), (∀ x ∈ l, (f x).length = n) →
      ∀ (i j : ℕ) (d : α), i < l.length → j < n →
        (l.flatMap f).getD (i * n + j) d = (f (l.getD i dB)).getD j d := by
  intro l
  induction l with
  | nil => intro _ i j d hi _; simp at hi
  | cons x xs ih =>
    intro hunif i j d hi hj
    rw [List.flatMap_cons]
    cases i with
    | zero =>
      simp only [Nat.zero_mul, Nat.zero_add]
      rw [List.getD_append _ _ _ _ (by rw [hunif x (by simp)]; exact hj)]
      simp [List.getD]
    | succ k =>
      have hx : (f x).length = n := hunif x (by simp)
      have hidx : (k + 1) * n + j = (f x).length + (k * n + j) := by
        rw [hx]; ring
      rw [hidx, List.getD_append_right _ _ _ _ (by omega)]
      simp only [Nat.add_sub_cancel_left]
      rw [ih (fun y hy => hunif y (by simp [hy])) k j d (by simpa using hi) hj]
      simp [List.getD]

/-! ### Support lemmas for the training-state claims -/

theorem epochTransition_fields (s : TrainState) (m : ℚ) :
    (epochTransition s m).kl_weight = s.kl_weight ∧
    (epochTransition s m).encSteps = s.encSteps ∧
    (epochTransition s m).encBackwards = s.encBackwards ∧
    (epochTransition s m).decSteps = s.decSteps ∧
    (epochTransition s m).decBackwards = s.decBackwards ∧
    (epochTransition s m).val_batches = 0 ∧
    (epochTransition s m).mi_curr = 0 ∧
    (epochTransition s m).mi_prev = m := by
  unfold epochTransition
  dsimp only
  split_ifs <;> simp

theorem epochTransition_aggressive_mono (s : TrainState) (m : ℚ)
    (h : (epochTransition s m).aggressive = true) : s.aggressive = true := by
  unfold epochTransition at h
  dsimp only at h
  split_ifs at h <;> simp_all

theorem epochTransition_aggressive_false (s : TrainState) (m : ℚ)
    (h : s.aggressive = false) : (epochTransition s m).aggressive = false := by
  rcases hr : (epochTransition s m).aggressive with _ | _
  · rfl
  · rw [epochTransition_aggressive_mono s m hr] at h
    exact absurd h (by simp)

theorem innerFold_some_spec (hp : Hyper) (fwd : ℕ → ℚ × ℚ) (sl bs : ℕ) :
    ∀ (l : List ℕ) (bnw : ℕ) (bp bc : ℚ) (s : TrainState) (il : ℕ)
      (s' : TrainState) (i : ℕ),
      innerFold hp fwd sl bs l bnw bp bc s il = some (s', i) →
      ∃ k, k ≤ l.length ∧
        s' = { s with encBackwards := s.encBackwards + k, encSteps := s.encSteps + k } ∧
        (i ∈ l ∨ i = il) := by
  intro l
  induction l with
  | nil =>
    intro bnw bp bc s il s' i h
    refine ⟨0, by simp, ?_, ?_⟩
    · unfold innerFold at h
      injection h with h'
      injection h' with h1 h2
      simp [← h1]
    · unfold innerFold at h
      injection h with h'
      injection h' with h1 h2
      simp [← h2]
  | cons j rest ih =>
    intro bnw bp bc s il s' i h
    unfold innerFold at h
    dsimp only at h
    rcases hmod : pymod j (hp.inner_iter / 10) with _ | r
    · rw [hmod] at h; exact absurd h (by simp)
    · rw [hmod] at h
      dsimp only at h
      by_cases hr : r = 0
      · rw [if_pos hr] at h
        split at h
        · injection h with h'
          injection h' with h1 h2
          exact ⟨1, by simp, by simp [← h1], by simp [← h2]⟩
        · obtain ⟨k, hk, hs, hi⟩ := ih _ _ _ _ _ _ _ h
          refine ⟨k + 1, by simp; omega, ?_, ?_⟩
          · rw [hs]; simp; constructor <;> omega
          · rcases hi with hi | hi
            · exact Or.inl (by simp [hi])
            · exact Or.inl (by simp [hi])
      · rw [if_neg hr] at h
        obtain ⟨k, hk, hs, hi⟩ := ih _ _ _ _ _ _ _ h
        refine ⟨k + 1, by simp; omega, ?_, ?_⟩
        · rw [hs]; simp; constructor <;> omega
        · rcases hi with hi | hi
          · exact Or.inl (by simp [hi])
          · exact Or.inl (by simp [hi])

theorem innerFold_total (hp : Hyper) (fwd : ℕ → ℚ × ℚ) (sl bs : ℕ)
    (hdiv : hp.inner_iter / 10 ≠ 0) :
    ∀ (l : List ℕ) (bnw : ℕ) (bp bc : ℚ) (s : TrainState) (il : ℕ),
      ∃ s' i, innerFold hp fwd sl bs l bnw bp bc s il = some (s', i) := by
  intro l
  induction l with
  | nil => intro bnw bp bc s il; exact ⟨s, il, rfl⟩
  | cons j rest ih =>
    intro bnw bp bc s il
    unfold innerFold
    dsimp only
    rw [show pymod j (hp.inner_iter / 10) = some (j % (hp.inner_iter / 10)) from by
      simp [pymod, hdiv]]
    dsimp only
    by_cases hr : j % (hp.inner_iter / 10) = 0
    · rw [if_pos hr]
      split
      · exact ⟨_, _, rfl⟩
      · exact ih _ _ _ _ _
    · rw [if_neg hr]; exact ih _ _ _ _ _

theorem innerFold_div_zero (hp : Hyper) (fwd : ℕ → ℚ × ℚ) (sl bs : ℕ)
    (hdiv : hp.inner_iter / 10 = 0) (j : ℕ) (rest : List ℕ) (bnw : ℕ) (bp bc : ℚ)
    (s : TrainState) (il : ℕ) :
    innerFold hp fwd sl bs (j :: rest) bnw bp bc s il = none := by
  unfold innerFold
  simp [pymod, hdiv]

theorem mem_range'_one_le (n : ℕ) : ∀ i, i ∈ List.range' 1 n → 1 ≤ i ∧ i ≤ n := by
  have hgen : ∀ (m a : ℕ), ∀ i, i ∈ List.range' a m → a ≤ i ∧ i < a + m := by
    intro m
    induction m with
    | zero => intro a i h; simp [List.range'] at h
    | succ k ih =>
      intro a i h
      rw [List.range'_succ] at h
      rcases List.mem_cons.mp h with h1 | h2
      · omega
      · have := ih (a + 1) i h2
        omega
  intro i h
  have := hgen n 1 i h
  omega

theorem innerLoop_some_spec (hp : Hyper) (fwd : ℕ → ℚ × ℚ) (sl bs : ℕ)
    (s : TrainState) (s' : TrainState) (i : ℕ)
    (h : innerLoop hp fwd sl bs s = some (s', i)) :
    ∃ k, k ≤ hp.inner_iter ∧ i ≤ hp.inner_iter ∧
      s' = { s with encBackwards := s.encBackwards + k, encSteps := s.encSteps + k } := by
  unfold innerLoop at h
  by_cases hagg : s.aggressive
  · rw [if_pos hagg] at h
    obtain ⟨k, hk, hs, hi⟩ := innerFold_some_spec hp fwd sl bs _ _ _ _ _ _ _ _ h
    refine ⟨k, by simpa using hk, ?_, hs⟩
    rcases hi with hi | hi
    · exact (mem_range'_one_le hp.inner_iter i hi).2
    · omega
  · rw [if_neg hagg] at h
    injection h with h'
    injection h' with h1 h2
    exact ⟨0, by omega, by omega, by simp [← h1]⟩

theorem outerStep_spec (hp : Hyper) (s : TrainState) :
    (outerStep hp s).kl_weight = klAnneal hp.anneal_rate s.kl_weight ∧
    (outerStep hp s).decSteps = s.decSteps + 1 ∧
    (outerStep hp s).decBackwards = s.decBackwards + 1 ∧
    (outerStep hp s).encSteps = (if s.aggressive then s.encSteps else s.encSteps + 1) ∧
    (outerStep hp s).encBackwards =
      (if s.aggressive then s.encBackwards else s.encBackwards + 1) ∧
    (outerStep hp s).aggressive = s.aggressive := by
  unfold outerStep
  dsimp only
  split_ifs <;> simp

theorem preInnerState_some_spec (hp : Hyper) (bi ce : ℕ) (s s1 : TrainState)
    (h : preInnerState hp bi ce s = some s1) :
    s1.kl_weight = s.kl_weight ∧ s1.encSteps = s.encSteps ∧
    s1.encBackwards = s.encBackwards ∧ s1.decSteps = s.decSteps ∧
    s1.decBackwards = s.decBackwards ∧
    (s1.aggressive = true → s.aggressive = true) := by
  unfold preInnerState at h
  by_cases hb : bi = 0
  · rw [if_pos hb] at h
    unfold epochStartUpd at h
    by_cases hv : s.val_batches = 0
    · rw [if_pos hv] at h; exact absurd h (by simp)
    · rw [if_neg hv] at h
      simp only [Option.map_some'] at h
      obtain ⟨hkl, he1, he2, hd1, hd2, _, _, _⟩ :=
        epochTransition_fields s (s.mi_curr / (s.val_batches : ℚ))
      by_cases hc : (ce : ℤ) > (hp.max_aggressive_epochs : ℤ) - 1
      · rw [if_pos hc] at h
        injection h with h'
        refine ⟨by rw [← h']; exact hkl, by rw [← h']; exact he1,
          by rw [← h']; exact he2, by rw [← h']; exact hd1,
          by rw [← h']; exact hd2, ?_⟩
        intro hcontra
        rw [← h'] at hcontra
        exact absurd hcontra (by simp)
      · rw [if_neg hc] at h
        injection h with h'
        refine ⟨by rw [← h']; exact hkl, by rw [← h']; exact he1,
          by rw [← h']; exact he2, by rw [← h']; exact hd1,
          by rw [← h']; exact hd2, ?_⟩
        intro hcontra
        rw [← h'] at hcontra
        exact epochTransition_aggressive_mono _ _ hcontra
  · rw [if_neg hb] at h
    simp only [Option.map_some'] at h
    by_cases hc : (ce : ℤ) > (hp.max_aggressive_epochs : ℤ) - 1
    · rw [if_pos hc] at h
      injection h with h'
      refine ⟨by rw [← h'], by rw [← h'], by rw [← h'], by rw [← h'], by rw [← h'], ?_⟩
      intro hcontra
      rw [← h'] at hcontra
      exact absurd hcontra (by simp)
    · rw [if_neg hc] at h
      injection h with h'
      exact ⟨by rw [← h'], by rw [← h'], by rw [← h'], by rw [← h'], by rw [← h'],
        fun hc => by rw [← h'] at hc; exact hc⟩

theorem training_step_decomp (hp : Hyper) (fwd : ℕ → ℚ × ℚ) (sl bs bi ce : ℕ)
    (s s' : TrainState) (h : training_step hp fwd sl bs bi ce s = some s') :
    ∃ s2 s3 i, preInnerState hp bi ce s = some s2 ∧
      innerLoop hp fwd sl bs s2 = some (s3, i) ∧ s' = outerStep hp s3 := by
  unfold training_step at h
  rcases hpre : preInnerState hp bi ce s with _ | s2
  · rw [hpre] at h; exact absurd h (by simp)
  · rw [hpre] at h
    simp only [Option.some_bind] at h
    rcases hinner : innerLoop hp fwd sl bs s2 with _ | p
    · rw [hinner] at h; exact absurd h (by simp)
    · rw [hinner] at h
      simp only [Option.map_some'] at h
      injection h with h'
      exact ⟨s2, p.1, p.2, rfl, by rw [hinner], h'.symm⟩

/-- While the normalized MI keeps failing to improve, each epoch start
decrements the patience by exactly one, and aggressive mode survives exactly
while the remaining patience is positive. -/
theorem epochIter_invariant (hp : Hyper) (ms : ℕ → ℚ)
    (hagg : hp.aggressive0 = true) (hpat : 1 ≤ hp.aggressive_patience)
    (h0 : ms 0 < 0) (hdec : ∀ k, ms (k + 1) < ms k) :
    ∀ k, k ≤ hp.aggressive_patience.toNat →
      (epochIter ms (initState hp) k).mi_patience = hp.aggressive_patience - k ∧
      (epochIter ms (initState hp) k).aggressive =
        (if k < hp.aggressive_patience.toNat then true else false) ∧
      (epochIter ms (initState hp) k).mi_prev = (if k = 0 then (0 : ℚ) else ms (k - 1)) := by
  intro k
  induction k with
  | zero =>
    intro _
    refine ⟨by simp [epochIter, initState], ?_, by simp [epochIter, initState]⟩
    rw [if_pos (by omega)]
    simp [epochIter, initState, hagg]
  | succ k ih =>
    intro hk1
    obtain ⟨hpatk, haggk, hprevk⟩ := ih (by omega)
    have haggk' : (epochIter ms (initState hp) k).aggressive = true := by
      rw [haggk, if_pos (by omega)]
    have hcond : ((epochIter ms (initState hp) k).aggressive = false ∨
        ms k < (epochIter ms (initState hp) k).mi_prev) := by
      right
      rw [hprevk]
      cases k with
      | zero => simpa using h0
      | succ j => simpa using hdec j
    rw [show epochIter ms (initState hp) (k + 1) =
      epochTransition (epochIter ms (initState hp) k) (ms k) from rfl]
    unfold epochTransition
    dsimp only
    rw [if_pos hcond]
    by_cases hle : (epochIter ms (initState hp) k).mi_patience - 1 ≤ 0
    · rw [if_pos hle]
      rw [hpatk] at hle
      refine ⟨?_, ?_, by simp⟩
      · dsimp only
        rw [hpatk]
        push_cast
        ring
      · dsimp only
        rw [if_neg (by omega)]
    · rw [if_neg hle]
      rw [hpatk] at hle
      refine ⟨?_, ?_, by simp⟩
      · dsimp only
        rw [hpatk]
        push_cast
        ring
      · dsimp only
        rw [haggk', if_pos (by omega)]

/-- Once the patience is exhausted, aggressive mode stays off at every later
epoch start. -/
theorem epochIter_false_after (hp : Hyper) (ms : ℕ → ℚ)
    (hagg : hp.aggressive0 = true) (hpat : 1 ≤ hp.aggressive_patience)
    (h0 : ms 0 < 0) (hdec : ∀ k, ms (k + 1) < ms k) :
    ∀ j, (epochIter ms (initState hp)
      (hp.aggressive_patience.toNat + j)).aggressive = false := by
  intro j
  induction j with
  | zero =>
    have := (epochIter_invariant hp ms hagg hpat h0 hdec
      hp.aggressive_patience.toNat (le_refl _)).2.1
    rw [Nat.add_zero, this, if_neg (by omega)]
  | succ j ih =>
    rw [show hp.aggressive_patience.toNat + (j + 1) =
      (hp.aggressive_patience.toNat + j) + 1 from by omega]
    rw [show epochIter ms (initState hp) ((hp.aggressive_patience.toNat + j) + 1) =
      epochTransition (epochIter ms (initState hp) (hp.aggressive_patience.toNat + j))
        (ms (hp.aggressive_patience.toNat + j)) from rfl]
    exact epochTransition_aggressive_false _ _ ih

/-- C1: starting in aggressive mode, if the normalized validation MI estimate
fails to improve at every epoch start (the stream of normalized values starts
below `mi_prev = 0` and keeps strictly decreasing), the epoch-start
controller block keeps aggressive mode for exactly `aggressive_patience`
epoch starts and disables it at the `aggressive_patience`-th; the flag then
stays off at every later epoch start, and no transition of the training code
(epoch-start block, inner loop, outer step, validation step) ever turns the
aggressive flag back on. -/
theorem C1_controller_patience_switch (hp : Hyper) (ms : ℕ → ℚ)
    (hagg : hp.aggressive0 = true) (hpat : 1 ≤ hp.aggressive_patience)
    (h0 : ms 0 < 0) (hdec : ∀ k, ms (k + 1) < ms k) :
    (∀ k, k < hp.aggressive_patience.toNat →
      (epochIter ms (initState hp) k).aggressive = true) ∧
    (∀ k, hp.aggressive_patience.toNat ≤ k →
      (epochIter ms (initState hp) k).aggressive = false) ∧
    (∀ s : TrainState, s.val_batches ≠ 0 →
      epochStartUpd s = some (epochTransition s (s.mi_curr / (s.val_batches : ℚ)))) ∧
    (∀ (s : TrainState) (m : ℚ),
      (epochTransition s m).aggressive = true → s.aggressive = true) ∧
    (∀ (fwd : ℕ → ℚ × ℚ) (sl bs bi ce : ℕ) (s s' : TrainState),
      training_step hp fwd sl bs bi ce s = some s' →
      s'.aggressive = true → s.aggressive = true) ∧
    (∀ (mi : ℚ) (s : TrainState), (validation_step mi s).aggressive = s.aggressive) := by
  refine ⟨?_, ?_, ?_, ?_, ?_, ?_⟩
  · intro k hk
    have := (epochIter_invariant hp ms hagg hpat h0 hdec k (by omega)).2.1
    rw [this, if_pos hk]
  · intro k hk
    obtain ⟨j, rfl⟩ : ∃ j, k = hp.aggressive_patience.toNat + j :=
      ⟨k - hp.aggressive_patience.toNat, by omega⟩
    exact epochIter_false_after hp ms hagg hpat h0 hdec j
  · intro s hv
    simp [epochStartUpd, hv]
  · exact epochTransition_aggressive_mono
  · intro fwd sl bs bi ce s s' hstep htrue
    obtain ⟨s2, s3, i, hpre, hinner, houter⟩ :=
      training_step_decomp hp fwd sl bs bi ce s s' hstep
    obtain ⟨k, _, _, hs3⟩ := innerLoop_some_spec hp fwd sl bs s2 s3 i hinner
    have h3 : s3.aggressive = s2.aggressive := by rw [hs3]
    have houteragg := (outerStep_spec hp s3).2.2.2.2.2
    rw [houter, houteragg, h3] at htrue
    exact (preInnerState_some_spec hp bi ce s s2 hpre).2.2.2.2.2 htrue
  · intro mi s
    rfl

/-- Witness for C1 at `hpW` (patience 2) and the decreasing MI stream `msW`:
aggressive after one epoch start, standard after two. -/
theorem C1_controller_patience_switch_w :
    (epochIter msW (initState hpW) 1).aggressive = true ∧
    (epochIter msW (initState hpW) 2).aggressive = false := by
  have h := C1_controller_patience_switch hpW msW rfl (by norm_num [hpW])
    (by norm_num [msW])
    (fun k => by simp only [msW]; push_cast; linarith)
  exact ⟨h.1 1 (by norm_num [hpW]), h.2.1 2 (by norm_num [hpW])⟩

theorem foldl_validation_val_batches (mis : List ℚ) :
    ∀ t : TrainState,
      (mis.foldl (fun t mi => validation_step mi t) t).val_batches =
        t.val_batches + mis.length := by
  induction mis with
  | nil => intro t; simp
  | cons mi rest ih =>
    intro t
    rw [List.foldl_cons, ih]
    simp [validation_step]
    omega

theorem roundNearestEven_of_lt (y : ℚ) (f : ℤ) (h1 : (f : ℚ) ≤ y)
    (h2 : y < (f : ℚ) + 1 / 2) : roundNearestEven y = f := by
  have hf : ⌊y⌋ = f := Int.floor_eq_iff.mpr ⟨h1, by linarith⟩
  unfold roundNearestEven
  rw [hf, if_pos (by linarith)]

theorem roundNearestEven_of_gt (y : ℚ) (f : ℤ) (h1 : (f : ℚ) + 1 / 2 < y)
    (h2 : y < (f : ℚ) + 1) : roundNearestEven y = f + 1 := by
  have hf : ⌊y⌋ = f := Int.floor_eq_iff.mpr ⟨by linarith, by
    linarith⟩
  unfold roundNearestEven
  rw [hf, if_neg (by linarith), if_pos (by linarith)]

theorem roundNearestEven_tie_even (y : ℚ) (f : ℤ) (hy : y = (f : ℚ) + 1 / 2)
    (he : f % 2 = 0) : roundNearestEven y = f := by
  have hf : ⌊y⌋ = f := Int.floor_eq_iff.mpr ⟨by rw [hy]; linarith, by
    rw [hy]; linarith⟩
  unfold roundNearestEven
  rw [hf, if_neg (by rw [hy]; linarith),
    if_neg (by rw [hy]; linarith), if_pos he]

theorem roundNearestEven_tie_odd (y : ℚ) (f : ℤ) (hy : y = (f : ℚ) + 1 / 2)
    (ho : ¬ f % 2 = 0) : roundNearestEven y = f + 1 := by
  have hf : ⌊y⌋ = f := Int.floor_eq_iff.mpr ⟨by rw [hy]; linarith, by
    rw [hy]; linarith⟩
  unfold roundNearestEven
  rw [hf, if_neg (by rw [hy]; linarith),
    if_neg (by rw [hy]; linarith), if_neg ho]

theorem int_log2_eq (x : ℚ) (e : ℤ) (hx : 0 < x) (hl : (2 : ℚ) ^ e ≤ x)
    (hh : x < (2 : ℚ) ^ (e + 1)) : Int.log 2 x = e := by
  have h1 : (2 : ℚ) ^ (Int.log 2 x) ≤ x := Int.zpow_log_le_self (by norm_num) hx
  have h2 : x < (2 : ℚ) ^ (Int.log 2 x + 1) := Int.lt_zpow_succ_log_self (by norm_num) x
  by_contra hne
  rcases lt_or_gt_of_ne hne with hlt | hgt
  · have hle : Int.log 2 x + 1 ≤ e := by omega
    have := zpow_le_zpow_right₀ (by norm_num : (1 : ℚ) ≤ 2) hle
    linarith
  · have hle : e + 1 ≤ Int.log 2 x := by omega
    have := zpow_le_zpow_right₀ (by norm_num : (1 : ℚ) ≤ 2) hle
    linarith

theorem rnd64_eq (x : ℚ) (e m : ℤ) (hx : 0 < x)
    (hl : (2 : ℚ) ^ e ≤ x) (hh : x < (2 : ℚ) ^ (e + 1))
    (hm : roundNearestEven (x * (2 : ℚ) ^ ((52 : ℤ) - e)) = m) :
    rnd64 x = (m : ℚ) * (2 : ℚ) ^ (e - 52) := by
  have hlog : Int.log 2 x = e := int_log2_eq x e hx hl hh
  unfold rnd64
  rw [if_neg (ne_of_gt hx), abs_of_pos hx, hlog, hm,
    if_neg (not_lt.mpr (le_of_lt hx)), one_mul]

theorem rate01_val : rate01 = 3602879701896397 / 36028797018963968 := by
  have hm : roundNearestEven ((1 / 10 : ℚ) * (2 : ℚ) ^ ((52 : ℤ) - (-4))) =
      7205759403792794 := by
    rw [show (1 / 10 : ℚ) * (2 : ℚ) ^ ((52 : ℤ) - (-4)) =
        (36028797018963968 / 5 : ℚ) from by norm_num]
    have hr := roundNearestEven_of_gt (36028797018963968 / 5 : ℚ) 7205759403792793
      (by norm_num) (by norm_num)
    omega
  unfold rate01
  rw [rnd64_eq (1 / 10) (-4) 7205759403792794 (by norm_num) (by norm_num) (by norm_num)
    hm]
  norm_num

theorem klAnnealF_step (w sum v w' : ℚ) (e m : ℤ)
    (hsum : w + rate01 = sum) (h0 : 0 < sum)
    (hl : (2 : ℚ) ^ e ≤ sum) (hh : sum < (2 : ℚ) ^ (e + 1))
    (hrne : roundNearestEven (sum * (2 : ℚ) ^ ((52 : ℤ) - e)) = m)
    (hv : (m : ℚ) * (2 : ℚ) ^ (e - 52) = v)
    (hmin : min 1 v = w') :
    klAnnealF rate01 w = w' := by
  unfold klAnnealF addF
  rw [hsum, rnd64_eq sum e m h0 hl hh hrne, hv, hmin]

/-- The binary64 kl-weight trace: ten program steps from 0.0 with the
binary64 literal 0.1 reach the double just below 1.0, not 1.0. -/
theorem klAnnealF_trace10 :
    (klAnnealF rate01)^[10] (0 : ℚ) = 9007199254740991 / 9007199254740992 := by
  have s1 : klAnnealF rate01 (0 : ℚ) = (3602879701896397 / 36028797018963968 : ℚ) := by
    apply klAnnealF_step (0 : ℚ) (3602879701896397 / 36028797018963968 : ℚ)
      (3602879701896397 / 36028797018963968 : ℚ) (3602879701896397 / 36028797018963968 : ℚ) (-4) 7205759403792794
    · rw [rate01_val]; norm_num
    · norm_num
    · norm_num
    · norm_num
    · rw [show (3602879701896397 / 36028797018963968 : ℚ) * (2 : ℚ) ^ ((52 : ℤ) - (-4)) =
          (7205759403792794 : ℚ) from by norm_num]
      have hr := roundNearestEven_of_lt (7205759403792794 : ℚ) 7205759403792794 (by norm_num)
        (by norm_num)
      omega
    · norm_num
    · rw [min_eq_right (by norm_num)]
  have s2 : klAnnealF rate01 (3602879701896397 / 36028797018963968 : ℚ) = (3602879701896397 / 18014398509481984 : ℚ) := by
    apply klAnnealF_step (3602879701896397 / 36028797018963968 : ℚ) (3602879701896397 / 18014398509481984 : ℚ)
      (3602879701896397 / 18014398509481984 : ℚ) (3602879701896397 / 18014398509481984 : ℚ) (-3) 7205759403792794
    · rw [rate01_val]; norm_num
    · norm_num
    · norm_num
    · norm_num
    · rw [show (3602879701896397 / 18014398509481984 : ℚ) * (2 : ℚ) ^ ((52 : ℤ) - (-3)) =
          (7205759403792794 : ℚ) from by norm_num]
      have hr := roundNearestEven_of_lt (7205759403792794 : ℚ) 7205759403792794 (by norm_num)
        (by norm_num)
      omega
    · norm_num
    · rw [min_eq_right (by norm_num)]
  have s3 : klAnnealF rate01 (3602879701896397 / 18014398509481984 : ℚ) = (1351079888211149 / 4503599627370496 : ℚ) := by
    apply klAnnealF_step (3602879701896397 / 18014398509481984 : ℚ) (10808639105689191 / 36028797018963968 : ℚ)
      (1351079888211149 / 4503599627370496 : ℚ) (1351079888211149 / 4503599627370496 : ℚ) (-2) 5404319552844596
    · rw [rate01_val]; norm_num
    · norm_num
    · norm_num
    · norm_num
    · rw [show (10808639105689191 / 36028797018963968 : ℚ) * (2 : ℚ) ^ ((52 : ℤ) - (-2)) =
          (10808639105689191 / 2 : ℚ) from by norm_num]
      have hr := roundNearestEven_tie_odd (10808639105689191 / 2 : ℚ) 5404319552844595 (by norm_num)
        (by norm_num)
      omega
    · norm_num
    · rw [min_eq_right (by norm_num)]
  have s4 : klAnnealF rate01 (1351079888211149 / 4503599627370496 : ℚ) = (3602879701896397 / 9007199254740992 : ℚ) := by
    apply klAnnealF_step (1351079888211149 / 4503599627370496 : ℚ) (14411518807585589 / 36028797018963968 : ℚ)
      (3602879701896397 / 9007199254740992 : ℚ) (3602879701896397 / 9007199254740992 : ℚ) (-2) 7205759403792794
    · rw [rate01_val]; norm_num
    · norm_num
    · norm_num
    · norm_num
    · rw [show (14411518807585589 / 36028797018963968 : ℚ) * (2 : ℚ) ^ ((52 : ℤ) - (-2)) =
          (14411518807585589 / 2 : ℚ) from by norm_num]
      have hr := roundNearestEven_tie_even (14411518807585589 / 2 : ℚ) 7205759403792794 (by norm_num)
        (by norm_num)
      omega
    · norm_num
    · rw [min_eq_right (by norm_num)]
  have s5 : klAnnealF rate01 (3602879701896397 / 9007199254740992 : ℚ) = (1 / 2 : ℚ) := by
    apply klAnnealF_step (3602879701896397 / 9007199254740992 : ℚ) (18014398509481985 / 36028797018963968 : ℚ)
      (1 / 2 : ℚ) (1 / 2 : ℚ) (-1) 4503599627370496
    · rw [rate01_val]; norm_num
    · norm_num
    · norm_num
    · norm_num
    · rw [show (18014398509481985 / 36028797018963968 : ℚ) * (2 : ℚ) ^ ((52 : ℤ) - (-1)) =
          (18014398509481985 / 4 : ℚ) from by norm_num]
      have hr := roundNearestEven_of_lt (18014398509481985 / 4 : ℚ) 4503599627370496 (by norm_num)
        (by norm_num)
      omega
    · norm_num
    · rw [min_eq_right (by norm_num)]
  have s6 : klAnnealF rate01 (1 / 2 : ℚ) = (5404319552844595 / 9007199254740992 : ℚ) := by
    apply klAnnealF_step (1 / 2 : ℚ) (21617278211378381 / 36028797018963968 : ℚ)
      (5404319552844595 / 9007199254740992 : ℚ) (5404319552844595 / 9007199254740992 : ℚ) (-1) 5404319552844595
    · rw [rate01_val]; norm_num
    · norm_num
    · norm_num
    · norm_num
    · rw [show (21617278211378381 / 36028797018963968 : ℚ) * (2 : ℚ) ^ ((52 : ℤ) - (-1)) =
          (21617278211378381 / 4 : ℚ) from by norm_num]
      have hr := roundNearestEven_of_lt (21617278211378381 / 4 : ℚ) 5404319552844595 (by norm_num)
        (by norm_num)
      omega
    · norm_num
    · rw [min_eq_right (by norm_num)]
  have s7 : klAnnealF rate01 (5404319552844595 / 9007199254740992 : ℚ) = (3152519739159347 / 4503599627370496 : ℚ) := by
    apply klAnnealF_step (5404319552844595 / 9007199254740992 : ℚ) (25220157913274777 / 36028797018963968 : ℚ)
      (3152519739159347 / 4503599627370496 : ℚ) (3152519739159347 / 4503599627370496 : ℚ) (-1) 6305039478318694
    · rw [rate01_val]; norm_num
    · norm_num
    · norm_num
    · norm_num
    · rw [show (25220157913274777 / 36028797018963968 : ℚ) * (2 : ℚ) ^ ((52 : ℤ) - (-1)) =
          (25220157913274777 / 4 : ℚ) from by norm_num]
      have hr := roundNearestEven_of_lt (25220157913274777 / 4 : ℚ) 6305039478318694 (by norm_num)
        (by norm_num)
      omega
    · norm_num
    · rw [min_eq_right (by norm_num)]
  have s8 : klAnnealF rate01 (3152519739159347 / 4503599627370496 : ℚ) = (7205759403792793 / 9007199254740992 : ℚ) := by
    apply klAnnealF_step (3152519739159347 / 4503599627370496 : ℚ) (28823037615171173 / 36028797018963968 : ℚ)
      (7205759403792793 / 9007199254740992 : ℚ) (7205759403792793 / 9007199254740992 : ℚ) (-1) 7205759403792793
    · rw [rate01_val]; norm_num
    · norm_num
    · norm_num
    · norm_num
    · rw [show (28823037615171173 / 36028797018963968 : ℚ) * (2 : ℚ) ^ ((52 : ℤ) - (-1)) =
          (28823037615171173 / 4 : ℚ) from by norm_num]
      have hr := roundNearestEven_of_lt (28823037615171173 / 4 : ℚ) 7205759403792793 (by norm_num)
        (by norm_num)
      omega
    · norm_num
    · rw [min_eq_right (by norm_num)]
  have s9 : klAnnealF rate01 (7205759403792793 / 9007199254740992 : ℚ) = (2026619832316723 / 2251799813685248 : ℚ) := by
    apply klAnnealF_step (7205759403792793 / 9007199254740992 : ℚ) (32425917317067569 / 36028797018963968 : ℚ)
      (2026619832316723 / 2251799813685248 : ℚ) (2026619832316723 / 2251799813685248 : ℚ) (-1) 8106479329266892
    · rw [rate01_val]; norm_num
    · norm_num
    · norm_num
    · norm_num
    · rw [show (32425917317067569 / 36028797018963968 : ℚ) * (2 : ℚ) ^ ((52 : ℤ) - (-1)) =
          (32425917317067569 / 4 : ℚ) from by norm_num]
      have hr := roundNearestEven_of_lt (32425917317067569 / 4 : ℚ) 8106479329266892 (by norm_num)
        (by norm_num)
      omega
    · norm_num
    · rw [min_eq_right (by norm_num)]
  have s10 : klAnnealF rate01 (2026619832316723 / 2251799813685248 : ℚ) = (9007199254740991 / 9007199254740992 : ℚ) := by
    apply klAnnealF_step (2026619832316723 / 2251799813685248 : ℚ) (36028797018963965 / 36028797018963968 : ℚ)
      (9007199254740991 / 9007199254740992 : ℚ) (9007199254740991 / 9007199254740992 : ℚ) (-1) 9007199254740991
    · rw [rate01_val]; norm_num
    · norm_num
    · norm_num
    · norm_num
    · rw [show (36028797018963965 / 36028797018963968 : ℚ) * (2 : ℚ) ^ ((52 : ℤ) - (-1)) =
          (36028797018963965 / 4 : ℚ) from by norm_num]
      have hr := roundNearestEven_of_lt (36028797018963965 / 4 : ℚ) 9007199254740991 (by norm_num)
        (by norm_num)
      omega
    · norm_num
    · rw [min_eq_right (by norm_num)]
  rw [show (10 : ℕ) = 9 + 1 from rfl,
    Function.iterate_succ_apply,
    s1,
    show (9 : ℕ) = 8 + 1 from rfl,
    Function.iterate_succ_apply,
    s2,
    show (8 : ℕ) = 7 + 1 from rfl,
    Function.iterate_succ_apply,
    s3,
    show (7 : ℕ) = 6 + 1 from rfl,
    Function.iterate_succ_apply,
    s4,
    show (6 : ℕ) = 5 + 1 from rfl,
    Function.iterate_succ_apply,
    s5,
    show (5 : ℕ) = 4 + 1 from rfl,
    Function.iterate_succ_apply,
    s6,
    show (4 : ℕ) = 3 + 1 from rfl,
    Function.iterate_succ_apply,
    s7,
    show (3 : ℕ) = 2 + 1 from rfl,
    Function.iterate_succ_apply,
    s8,
    show (2 : ℕ) = 1 + 1 from rfl,
    Function.iterate_succ_apply,
    s9,
    show (1 : ℕ) = 0 + 1 from rfl,
    Function.iterate_succ_apply,
    s10,
    Function.iterate_zero_apply]

/-- The eleventh binary64 step is the first to make kl_weight exactly 1.0:
the rounded sum exceeds 1, and the `min` with 1.0 selects 1.0. -/
theorem klAnnealF_trace11 : (klAnnealF rate01)^[11] (0 : ℚ) = 1 := by
  have s11 : klAnnealF rate01 (9007199254740991 / 9007199254740992 : ℚ) = (1 : ℚ) := by
    apply klAnnealF_step (9007199254740991 / 9007199254740992 : ℚ) (39631676720860361 / 36028797018963968 : ℚ)
      (4953959590107545 / 4503599627370496 : ℚ) (1 : ℚ) (0) 4953959590107545
    · rw [rate01_val]; norm_num
    · norm_num
    · norm_num
    · norm_num
    · rw [show (39631676720860361 / 36028797018963968 : ℚ) * (2 : ℚ) ^ ((52 : ℤ) - (0)) =
          (39631676720860361 / 8 : ℚ) from by norm_num]
      have hr := roundNearestEven_of_lt (39631676720860361 / 8 : ℚ) 4953959590107545 (by norm_num)
        (by norm_num)
      omega
    · norm_num
    · rw [min_eq_left (by norm_num)]
  rw [show (11 : ℕ) = 10 + 1 from rfl, Function.iterate_succ_apply',
    klAnnealF_trace10, s11]

/-- Counterexample for C2 as stated: in the binary64 arithmetic the program
runs, ten annealing steps from 0.0 at rate 0.1 yield 0.9999999999999999
= (2^53 - 1) / 2^53, which is not 1.0 — even though in exact rational
arithmetic ten steps of min(1, w + 1/10) from 0 give exactly 1. -/
theorem C2_cex :
    (klAnnealF rate01)^[10] (0 : ℚ) = 9007199254740991 / 9007199254740992 ∧
    (klAnnealF rate01)^[10] (0 : ℚ) ≠ 1 ∧
    (klAnneal (1 / 10))^[10] (0 : ℚ) = 1 := by
  refine ⟨klAnnealF_trace10, ?_, ?_⟩
  · rw [klAnnealF_trace10]; norm_num
  · norm_num [Function.iterate_succ_apply', klAnneal, show (10 : ℕ) = 9 + 1 from rfl,
      show (9 : ℕ) = 8 + 1 from rfl, show (8 : ℕ) = 7 + 1 from rfl,
      show (7 : ℕ) = 6 + 1 from rfl, show (6 : ℕ) = 5 + 1 from rfl,
      show (5 : ℕ) = 4 + 1 from rfl, show (4 : ℕ) = 3 + 1 from rfl,
      show (3 : ℕ) = 2 + 1 from rfl, show (2 : ℕ) = 1 + 1 from rfl,
      show (1 : ℕ) = 0 + 1 from rfl]

/-- C2 (amended): on every successful training step, `kl_weight` is updated
exactly once to `min(1.0, kl_weight + anneal_rate)` — no matter whether (or
how long) the inner aggressive loop ran — hence it never exceeds 1.0 and it
is non-decreasing whenever the configured anneal rate is non-negative (and
the weight has not been set above the 1.0 cap).  However, in the binary64
arithmetic the program actually runs, from `kl_weight_start = 0.0` with
`anneal_rate = 0.1` ten applications reach 0.9999999999999999
(= (2^53 - 1) / 2^53), not exactly 1.0; exactly 1.0 is first reached after
the eleventh step. -/
theorem C2_kl_anneal (hp : Hyper) (fwd : ℕ → ℚ × ℚ) (sl bs bi ce : ℕ)
    (s s' : TrainState) (h : training_step hp fwd sl bs bi ce s = some s') :
    s'.kl_weight = klAnneal hp.anneal_rate s.kl_weight ∧
    s'.kl_weight ≤ 1 ∧
    (0 ≤ hp.anneal_rate → s.kl_weight ≤ 1 → s.kl_weight ≤ s'.kl_weight) ∧
    (klAnnealF rate01)^[10] (0 : ℚ) = 9007199254740991 / 9007199254740992 ∧
    (klAnnealF rate01)^[11] (0 : ℚ) = 1 := by
  obtain ⟨s2, s3, i, hpre, hinner, houter⟩ := training_step_decomp hp fwd sl bs bi ce s s' h
  obtain ⟨k, _, _, hs3⟩ := innerLoop_some_spec hp fwd sl bs s2 s3 i hinner
  have h3 : s3.kl_weight = s2.kl_weight := by rw [hs3]
  have h2 : s2.kl_weight = s.kl_weight := (preInnerState_some_spec hp bi ce s s2 hpre).1
  have hkl : s'.kl_weight = klAnneal hp.anneal_rate s.kl_weight := by
    rw [houter, (outerStep_spec hp s3).1, h3, h2]
  refine ⟨hkl, ?_, ?_, klAnnealF_trace10, klAnnealF_trace11⟩
  · rw [hkl]; exact min_le_left _ _
  · intro hrate hcap
    rw [hkl]
    exact le_min hcap (by linarith)

/-- Witness for C2 on a concrete non-aggressive training step. -/
theorem C2_kl_anneal_w :
    sNAafter.kl_weight = klAnneal hpW.anneal_rate sNA.kl_weight ∧
    sNAafter.kl_weight ≤ 1 ∧ sNA.kl_weight ≤ sNAafter.kl_weight ∧
    (klAnnealF rate01)^[10] (0 : ℚ) = 9007199254740991 / 9007199254740992 ∧
    (klAnnealF rate01)^[11] (0 : ℚ) = 1 := by
  have hrun : training_step hpW fwd0 2 2 1 0 sNA = some sNAafter := by
    norm_num [training_step, preInnerState, innerLoop, outerStep, klAnneal, min_def,
      sNA, sNAafter, hpW, initState, epochStartUpd]
  have h := C2_kl_anneal hpW fwd0 2 2 1 0 sNA sNAafter hrun
  exact ⟨h.1, h.2.1, h.2.2.1 (by norm_num [hpW]) (by norm_num [sNA, initState, hpW]),
    h.2.2.2.1, h.2.2.2.2⟩

/-- C6: every successful training step factors through the outer joint step,
which always backpropagates into and steps the decoder optimizer; it
backpropagates into and steps the encoder optimizer exactly when aggressive
mode is off, and when aggressive mode is on the outer step leaves both encoder
counters untouched — the encoder optimizer was advanced only by the inner
loop (which changed nothing else about the optimizer counters). -/
theorem C6_outer_optimizer_frame (hp : Hyper) (fwd : ℕ → ℚ × ℚ) (sl bs bi ce : ℕ)
    (s s' : TrainState) (h : training_step hp fwd sl bs bi ce s = some s') :
    ∃ s2 s3 i, preInnerState hp bi ce s = some s2 ∧
      innerLoop hp fwd sl bs s2 = some (s3, i) ∧
      s' = outerStep hp s3 ∧
      s'.decSteps = s3.decSteps + 1 ∧
      s'.decBackwards = s3.decBackwards + 1 ∧
      (s3.aggressive = true →
        s'.encSteps = s3.encSteps ∧ s'.encBackwards = s3.encBackwards) ∧
      (s3.aggressive = false →
        s'.encSteps = s3.encSteps + 1 ∧ s'.encBackwards = s3.encBackwards + 1) ∧
      s3.aggressive = s2.aggressive ∧
      s3.decSteps = s2.decSteps ∧ s3.decBackwards = s2.decBackwards ∧
      (∃ k, k ≤ hp.inner_iter ∧ s3.encSteps = s2.encSteps + k ∧
        s3.encBackwards = s2.encBackwards + k) := by
  obtain ⟨s2, s3, i, hpre, hinner, houter⟩ := training_step_decomp hp fwd sl bs bi ce s s' h
  obtain ⟨k, hk, _, hs3⟩ := innerLoop_some_spec hp fwd sl bs s2 s3 i hinner
  obtain ⟨_, hdS, hdB, heS, heB, _⟩ := outerStep_spec hp s3
  refine ⟨s2, s3, i, hpre, hinner, houter, by rw [houter, hdS], by rw [houter, hdB],
    ?_, ?_, by rw [hs3], by rw [hs3], by rw [hs3],
    ⟨k, hk, by rw [hs3], by rw [hs3]⟩⟩
  · intro hagg
    rw [houter, heS, heB, if_pos hagg, if_pos hagg]
    exact ⟨rfl, rfl⟩
  · intro hagg
    rw [houter, heS, heB, if_neg (by simp [hagg]), if_neg (by simp [hagg])]
    exact ⟨rfl, rfl⟩

/-- Witness for C6 on the same concrete non-aggressive training step. -/
theorem C6_outer_optimizer_frame_w :
    sNAafter.decSteps = sNA.decSteps + 1 ∧ sNAafter.encSteps = sNA.encSteps + 1 := by
  have hrun : training_step hpW fwd0 2 2 1 0 sNA = some sNAafter := by
    norm_num [training_step, preInnerState, innerLoop, outerStep, klAnneal, min_def,
      sNA, sNAafter, hpW, initState, epochStartUpd]
  obtain ⟨s2, s3, i, hpre, hinner, houter, hdS, hdB, _, haggF, _, hd2, _, _⟩ :=
    C6_outer_optimizer_frame hpW fwd0 2 2 1 0 sNA sNAafter hrun
  have hs2 : s2 = sNA := by
    have hp2 : preInnerState hpW 1 0 sNA = some sNA := by
      norm_num [preInnerState, hpW]
    rw [hp2] at hpre
    injection hpre with h'
    exact h'.symm
  have hs3 : s3 = sNA := by
    rw [hs2] at hinner
    have hi2 : innerLoop hpW fwd0 2 2 sNA = some (sNA, 0) := by
      norm_num [innerLoop, sNA, initState]
    rw [hi2] at hinner
    injection hinner with h'
    exact (congrArg Prod.fst h').symm
  have hforward := haggF (by rw [hs3]; norm_num [sNA, initState])
  rw [hs3] at hdS hforward
  exact ⟨hdS, hforward.1⟩

/-- C7: `decode` with a decoding-strategy name other than `beam_search`,
`greedy` or `sample` falls through every branch and then evaluates
`return text_sample` with `text_sample` never assigned — an immediate
`UnboundLocalError` (`none`), never a decoded string; there is no retry. -/
theorem C7_invalid_strategy {H : Type} (steps : List (StepF H)) (lse : List ℚ → ℚ)
    (V startTok endTok : ℕ) (dH : H) (h0s : List H) (sampler : ℕ → List ℚ → ℕ)
    (itos : ℕ → String) (self_strategy : String) (beam_length : ℕ) (strat : String)
    (h1 : strat ≠ "beam_search") (h2 : strat ≠ "greedy") (h3 : strat ≠ "sample") :
    decode steps lse V startTok endTok dH h0s sampler itos (some strat) self_strategy
      beam_length = none := by
  simp [decode, h1, h2, h3]

/-- Witness for C7 at the strategy name "foo". -/
theorem C7_invalid_strategy_w :
    decode stepsAB (fun _ => 0) 3 0 1 () [()] (fun _ _ => 0) itosW (some "foo")
      "greedy" 5 = none :=
  C7_invalid_strategy stepsAB (fun _ => 0) 3 0 1 () [()] (fun _ _ => 0) itosW
    "greedy" 5 "foo" (by decide) (by decide) (by decide)

/-- C9 (amended): the aggressive inner loop raises `ZeroDivisionError` at its
first iteration (`i % (inner_iter // 10)` with `inner_iter // 10 == 0`) for
every `1 ≤ inner_iter < 10`; for `inner_iter = 0` the `for` loop is empty, so
no division happens; and under the precondition `inner_iter ≥ 10` the loop
always succeeds with at most `inner_iter` encoder-only iterations. -/
theorem C9_inner_loop_guard (hp : Hyper) (fwd : ℕ → ℚ × ℚ) (sl bs : ℕ)
    (s : TrainState) (hagg : s.aggressive = true) :
    (1 ≤ hp.inner_iter → hp.inner_iter < 10 → innerLoop hp fwd sl bs s = none) ∧
    (10 ≤ hp.inner_iter → ∃ s' i, innerLoop hp fwd sl bs s = some (s', i) ∧
      i ≤ hp.inner_iter ∧ s'.encSteps ≤ s.encSteps + hp.inner_iter ∧
      s'.encBackwards ≤ s.encBackwards + hp.inner_iter) := by
  constructor
  · intro h1 h10
    have hdiv : hp.inner_iter / 10 = 0 := by omega
    unfold innerLoop
    rw [if_pos hagg]
    obtain ⟨m, hm⟩ : ∃ m, hp.inner_iter = m + 1 := ⟨hp.inner_iter - 1, by omega⟩
    rw [hm, List.range'_succ]
    exact innerFold_div_zero hp fwd sl bs hdiv _ _ _ _ _ _ _
  · intro h10
    have hdiv : hp.inner_iter / 10 ≠ 0 := by omega
    obtain ⟨s', i, heq⟩ := innerFold_total hp fwd sl bs hdiv
      (List.range' 1 hp.inner_iter) 0 10000 0 s 0
    have hloop : innerLoop hp fwd sl bs s = some (s', i) := by
      unfold innerLoop
      rw [if_pos hagg]
      exact heq
    obtain ⟨k, hk, hi, hs⟩ := innerLoop_some_spec hp fwd sl bs s s' i hloop
    exact ⟨s', i, hloop, hi, by rw [hs]; simp; omega, by rw [hs]; simp; omega⟩

/-- C9 counterexample: `inner_iter = 0` is smaller than 10, yet the aggressive
inner loop performs no iteration at all and succeeds — no modulo-by-zero is
evaluated — refuting "for any constructor argument `inner_iter < 10` the first
inner iteration of any aggressive training batch performs a modulo by zero and
fails". -/
theorem C9_cex :
    hp0.inner_iter < 10 ∧ sAgg.aggressive = true ∧
    innerLoop hp0 fwd0 2 2 sAgg = some (sAgg, 0) := by
  refine ⟨by norm_num [hp0, hpW], by norm_num [sAgg, initState, hpW], ?_⟩
  norm_num [innerLoop, sAgg, initState, hpW, hp0, innerFold]

/-- Witness for C9 with `inner_iter = 10` on an aggressive state. -/
theorem C9_inner_loop_guard_w : (innerLoop hpW fwd0 2 2 sAgg).isSome = true := by
  obtain ⟨s', i, heq, _⟩ := (C9_inner_loop_guard hpW fwd0 2 2 sAgg
    (by norm_num [sAgg, initState, hpW])).2 (by norm_num [hpW])
  rw [heq]
  rfl

/-- C10: the epoch-start normalization `mi_curr / val_batches` divides by the
validation-batch counter; it raises `ZeroDivisionError` exactly when that
counter is 0.  The constructor initialises the counter to 1 (guarding the
first epoch), every epoch start resets it to 0, every validation batch
increments it, and after a reset the next epoch-start division is safe exactly
when at least one validation batch ran in between. -/
theorem C10_val_batches_guard :
    (∀ hp : Hyper, (initState hp).val_batches = 1) ∧
    (∀ s : TrainState, (epochStartUpd s).isSome = true ↔ s.val_batches ≠ 0) ∧
    (∀ s s' : TrainState, epochStartUpd s = some s' → s'.val_batches = 0) ∧
    (∀ (mi : ℚ) (s : TrainState),
      (validation_step mi s).val_batches = s.val_batches + 1) ∧
    (∀ (s s' : TrainState) (mis : List ℚ), epochStartUpd s = some s' →
      ((epochStartUpd (mis.foldl (fun t mi => validation_step mi t) s')).isSome = true ↔
        mis ≠ [])) := by
  refine ⟨fun hp => rfl, ?_, ?_, fun mi s => rfl, ?_⟩
  · intro s
    by_cases hv : s.val_batches = 0 <;> simp [epochStartUpd, hv]
  · intro s s' h
    unfold epochStartUpd at h
    by_cases hv : s.val_batches = 0
    · rw [if_pos hv] at h; exact absurd h (by simp)
    · rw [if_neg hv] at h
      injection h with h'
      rw [← h']
      exact (epochTransition_fields s _).2.2.2.2.2.1
  · intro s s' mis h
    have hz : s'.val_batches = 0 := by
      unfold epochStartUpd at h
      by_cases hv : s.val_batches = 0
      · rw [if_pos hv] at h; exact absurd h (by simp)
      · rw [if_neg hv] at h
        injection h with h'
        rw [← h']
        exact (epochTransition_fields s _).2.2.2.2.2.1
    have hfold := foldl_validation_val_batches mis s'
    rw [hz] at hfold
    by_cases hm : mis = []
    · subst hm
      simp [epochStartUpd, hz]
    · have : (mis.foldl (fun t mi => validation_step mi t) s').val_batches ≠ 0 := by
        rw [hfold]
        have : mis.length ≠ 0 := by simpa using hm
        omega
      simp [epochStartUpd, this, hm]

/-- Witness for C10: the initial state divides safely, and after a reset one
validation batch restores safety. -/
theorem C10_val_batches_guard_w :
    ((epochStartUpd (initState hpW)).isSome = true) ∧
    ((epochStartUpd ([(1 : ℚ)].foldl (fun t mi => validation_step mi t)
      (epochTransition (initState hpW) 0))).isSome = true) := by
  have h := C10_val_batches_guard
  constructor
  · exact (h.2.1 (initState hpW)).mpr (by norm_num [initState, hpW])
  · have hsome : epochStartUpd (initState hpW) =
        some (epochTransition (initState hpW) 0) := by
      norm_num [epochStartUpd, initState, hpW]
    exact (h.2.2.2.2 (initState hpW) (epochTransition (initState hpW) 0) [(1 : ℚ)]
      hsome).mpr (by simp)

/-- C4 (amended): per batch element, `greedy_decode` selects the argmax token
at each step and stops that element upon emitting the end token or when the
step counter (starting at 1) reaches `max_length`, so at most
`max_length - 1` tokens are produced; the returned string joins every token
produced up to termination — *including* the end token itself when one was
emitted (the source appends the token before clearing the element's mask). -/
theorem C4_greedy_termination {H : Type} (dH : H) (steps : List (StepF H))
    (startTok endTok : ℕ) (h0s : List H) (max_length : ℕ) (itos : ℕ → String) (i : ℕ)
    (hlen : steps.length = h0s.length) (hi : i < h0s.length) :
    (greedyTokens steps startTok endTok h0s max_length).getD i [] =
      greedyElem (steps.getD i dStep) endTok (h0s.getD i dH) startTok (max_length - 1) ∧
    endTok ∉ ((greedyTokens steps startTok endTok h0s max_length).getD i []).dropLast ∧
    ((greedyTokens steps startTok endTok h0s max_length).getD i []).length ≤
      max_length - 1 ∧
    (((greedyTokens steps startTok endTok h0s max_length).getD i []).getLast? =
        some endTok ∨
      ((greedyTokens steps startTok endTok h0s max_length).getD i []).length =
        max_length - 1) ∧
    (greedy_decode steps startTok endTok h0s max_length itos).getD i "" =
      joinTokens itos ((greedyTokens steps startTok endTok h0s max_length).getD i []) := by
  have h1 := greedyTokens_elem dH steps startTok endTok h0s max_length i hlen hi
  refine ⟨h1, ?_, ?_, ?_, ?_⟩
  · rw [h1]
    exact greedyElem_end_not_before_last _ _ _ _ _
  · rw [h1]
    exact greedyElem_length_le _ _ _ _ _
  · rw [h1]
    exact greedyElem_last_or_full _ _ _ _ _
  · unfold greedy_decode
    rw [getD_map _ _ _ [] _ (by rw [greedyTokens_length _ _ _ _ _ hlen]; exact hi)]

/-- C4 counterexample: a decoder whose very first argmax token is the end
token.  The claim as stated excludes the end token from the returned text, so
the decoded string would have to be empty; the code appends the token before
clearing the mask, so it returns the end token itself. -/
theorem C4_cex :
    greedyTokens stepsEnd 0 1 [()] 5 = [[1]] ∧
    greedy_decode stepsEnd 0 1 [()] 5 itosW = ["</s>"] ∧
    ("</s>" : String) ≠ "" := by
  refine ⟨?_, ?_, by decide⟩
  · norm_num [greedyTokens, greedyLoop, greedyIter, stepsEnd, argmaxIdx, listMax]
  · norm_num [greedyTokens, greedy_decode, greedyLoop, greedyIter, stepsEnd, argmaxIdx,
      listMax, joinTokens, itosW]
    decide

/-- Witness for C4 on a concrete batch that never emits the end token. -/
theorem C4_greedy_termination_w :
    (greedyTokens stepsAB 0 1 [()] 3).getD 0 [] =
      greedyElem (stepsAB.getD 0 dStep) 1 ([()].getD 0 ()) 0 2 ∧
    (1 : ℕ) ∉ ((greedyTokens stepsAB 0 1 [()] 3).getD 0 []).dropLast ∧
    ((greedyTokens stepsAB 0 1 [()] 3).getD 0 []).length ≤ 2 := by
  have h := C4_greedy_termination () stepsAB 0 1 [()] 3 itosW 0 rfl (by norm_num)
  exact ⟨h.1, h.2.1, h.2.2.1⟩

/-- C3 counterexample: a model that never emits the end token, with
`max_length = 2`.  Beam search with width 1 runs up to `max_length` expansion
steps (`t` counts from 0), while greedy decoding's counter starts at 1 and so
performs only `max_length - 1` steps: the outputs differ ("a a" vs "a"),
refuting the claim for every `max_length`. -/
theorem C3_cex :
    beam_search_decode stepsAB (fun _ => 0) 3 0 1 () [()] 1 2 itosW = ["a a"] ∧
    greedy_decode stepsAB 0 1 [()] 2 itosW = ["a"] ∧
    beam_search_decode stepsAB (fun _ => 0) 3 0 1 () [()] 1 2 itosW ≠
      greedy_decode stepsAB 0 1 [()] 2 itosW := by
  have hbeam : beam_search_decode stepsAB (fun _ => 0) 3 0 1 () [()] 1 2 itosW
      = ["a a"] := by
    norm_num [beam_search_decode, beamLoop, beamLoopBody, topk, sortDesc, insertDesc,
      logSoftmax, stepsAB, stepABf, bestNode, utteranceOf, backtraceAux, joinTokens,
      itosW, dNode, List.enum, List.enumFrom, listMax, argmaxIdx,
      BeamSearchNode.h, BeamSearchNode.prevNode, BeamSearchNode.wordid,
      BeamSearchNode.logp, BeamSearchNode.leng, List.getD]
    decide
  have hgreedy : greedy_decode stepsAB 0 1 [()] 2 itosW = ["a"] := by
    norm_num [greedy_decode, greedyTokens, greedyLoop, greedyIter, stepsAB, stepABf,
      argmaxIdx, listMax, joinTokens, itosW]
    decide
  refine ⟨hbeam, hgreedy, ?_⟩
  rw [hbeam, hgreedy]
  decide

/-- C3 (amended): beam search with beam width 1 chooses the argmax token at
every step, exactly like greedy decoding, but performs one more step before
hitting the length bound; so for `max_length ≥ 1` it returns, per batch
element, the same string as greedy decoding run with `max_length + 1`
(provided the element's greedy continuation never re-emits the start token,
which beam search's back-trace would truncate at). -/
theorem C3_beam1_eq_greedy {H : Type} (dH : H) (steps : List (StepF H))
    (lse : List ℚ → ℚ) (V startTok endTok : ℕ) (h0s : List H) (L : ℕ)
    (itos : ℕ → String) (hlen : steps.length = h0s.length)
    (hstep : ∀ f ∈ steps, ∀ (h : H) (tok : ℕ), (f h tok).2.length = V)
    (hV : 1 ≤ V) (hL : 1 ≤ L)
    (hns : ∀ i, i < h0s.length →
      startTok ∉ greedyElem (steps.getD i dStep) endTok (h0s.getD i dH) startTok L) :
    beam_search_decode steps lse V startTok endTok dH h0s 1 L itos =
      greedy_decode steps startTok endTok h0s (L + 1) itos := by
  apply List.ext_getElem
  · unfold beam_search_decode greedy_decode
    rw [List.length_map, List.length_map, List.length_zip, hlen, min_self,
      greedyTokens_length _ _ _ _ _ hlen]
  · intro i hiL hiR
    have hi : i < h0s.length := by
      unfold beam_search_decode at hiL
      rw [List.length_map, List.length_zip, hlen, min_self] at hiL
      exact hiL
    have hL1 : beam_search_decode steps lse V startTok endTok dH h0s 1 L itos =
        (steps.zip h0s).map (fun fh =>
          joinTokens itos (utteranceOf startTok (bestNode dH
            ((beamLoop fh.1 lse V 1 endTok dH L
                [BeamSearchNode.mk fh.2 none startTok 0 1] [] 0).2 ++
              (beamLoop fh.1 lse V 1 endTok dH L
                [BeamSearchNode.mk fh.2 none startTok 0 1] [] 0).1)))) := rfl
    rw [← getD_eq_getElem _ i "" hiL, ← getD_eq_getElem _ i "" hiR]
    rw [hL1]
    rw [getD_map _ _ _ (dStep, dH) _ (by rw [List.length_zip, hlen, min_self]; exact hi)]
    rw [getD_zip _ _ _ _ _ (by rw [hlen]; exact hi) hi]
    unfold greedy_decode
    rw [getD_map _ _ _ [] _ (by rw [greedyTokens_length _ _ _ _ _ hlen]; exact hi)]
    rw [greedyTokens_elem dH steps startTok endTok h0s (L + 1) i hlen hi]
    have hmem : steps.getD i dStep ∈ steps := by
      rw [getD_eq_getElem _ i dStep (by rw [hlen]; exact hi)]
      exact List.getElem_mem _
    have hL1' : L + 1 - 1 = L := by omega
    rw [hL1']
    exact congrArg (joinTokens itos)
      (beam_elem_one (steps.getD i dStep) lse V startTok endTok dH (h0s.getD i dH)
        (hstep _ hmem) hV L hL (hns i hi))

/-- Witness for C3 (amended) at a concrete model: beam width 1 with
`max_length = 2` equals greedy with `max_length = 3`. -/
theorem C3_beam1_eq_greedy_w :
    beam_search_decode stepsAB (fun _ => 0) 3 0 1 () [()] 1 2 itosW =
      greedy_decode stepsAB 0 1 [()] 3 itosW := by
  apply C3_beam1_eq_greedy () stepsAB (fun _ => 0) 3 0 1 [()] 2 itosW rfl
  · intro f hf h tok
    rcases List.mem_singleton.mp (by simpa [stepsAB] using hf) with rfl
    rfl
  · norm_num
  · norm_num
  · intro i hi
    obtain rfl : i = 0 := by simpa using hi
    norm_num [greedyElem, stepsAB, stepABf, argmaxIdx, listMax, dStep, List.getD]

theorem length_flatMap_const {α β : Type _} (f : β → List α) (n : ℕ) :
    ∀ l : List β, (∀ x ∈ l, (f x).length = n) → (l.flatMap f).length = l.length * n := by
  intro l
  induction l with
  | nil => intro _; simp
  | cons x xs ih =>
    intro hunif
    rw [List.flatMap_cons, List.length_append, hunif x (by simp),
      ih (fun y hy => hunif y (by simp [hy]))]
    simp [Nat.succ_mul]
    omega

theorem getD_range (m i : ℕ) (h : i < m) : (List.range m).getD i 0 = i := by
  rw [getD_eq_getElem _ i 0 (by simpa using h)]
  simp

/-- C5: `MutualInformation` draws `z_iters` reparameterized sample batches
forming a pool of `batch_size * z_iters` samples, computes
`log_qz = logsumexp_over_inputs(log_density) - log(batch_size)` for each
pooled z, and returns `neg_entropy - mean_over_z(log_qz)` detached and with
gradient tracking disabled. -/
theorem C5_mutual_information (expQ logQ : ℚ → ℚ) (log2pi : ℚ) (lse : List ℚ → ℚ)
    (eps : ℕ → List (List ℚ)) (z_iters : ℕ) (mean logstd : List (List ℚ))
    (_hz : 1 ≤ z_iters) (hls : logstd.length = mean.length)
    (heps : ∀ i, (eps i).length = mean.length) :
    (mi_z_samples expQ eps z_iters mean logstd).length = mean.length * z_iters ∧
    (∀ i j, i < z_iters → j < mean.length →
      (mi_z_samples expQ eps z_iters mean logstd).getD (i * mean.length + j) [] =
        (sample_reparameterize expQ mean logstd (eps i)).getD j []) ∧
    (∀ k, k < (mi_z_samples expQ eps z_iters mean logstd).length →
      (mi_log_qz lse logQ mean.length
          (mi_log_density expQ log2pi mean
            (logstd.map (fun row => row.map (fun v => 2 * v)))
            ((mean.getD 0 []).length)
            (mi_z_samples expQ eps z_iters mean logstd))).getD k 0 =
        lse ((mi_log_density expQ log2pi mean
            (logstd.map (fun row => row.map (fun v => 2 * v)))
            ((mean.getD 0 []).length)
            (mi_z_samples expQ eps z_iters mean logstd)).getD k []) -
          logQ (mean.length : ℚ)) ∧
    (MutualInformation expQ logQ log2pi lse eps z_iters mean logstd).val =
      mi_neg_entropy log2pi (logstd.map (fun row => row.map (fun v => 2 * v)))
          ((mean.getD 0 []).length) -
        qmean (mi_log_qz lse logQ mean.length
          (mi_log_density expQ log2pi mean
            (logstd.map (fun row => row.map (fun v => 2 * v)))
            ((mean.getD 0 []).length)
            (mi_z_samples expQ eps z_iters mean logstd))) ∧
    (MutualInformation expQ logQ log2pi lse eps z_iters mean logstd).requiresGrad
      = false := by
  have hchunk : ∀ x ∈ List.range z_iters,
      (sample_reparameterize expQ mean logstd (eps x)).length = mean.length :=
    fun x _ => sample_reparameterize_length expQ mean logstd (eps x) hls (heps x)
  refine ⟨?_, ?_, ?_, rfl, rfl⟩
  · unfold mi_z_samples
    rw [length_flatMap_const _ mean.length _ hchunk, List.length_range, Nat.mul_comm]
  · intro i j hi hj
    unfold mi_z_samples
    rw [flatMap_const_length_getD 0 _ mean.length _ hchunk i j []
      (by simpa using hi) hj]
    rw [getD_range z_iters i hi]
  · intro k hk
    unfold mi_log_qz
    rw [getD_map _ _ _ [] _ (by unfold mi_log_density; rw [List.length_map]; exact hk)]

/-- Witness for C5 at a concrete 2-element batch with 2 sampling rounds. -/
theorem C5_mutual_information_w :
    (mi_z_samples id (fun _ => [[1], [1]]) 2 [[1], [2]] [[0], [0]]).length = 2 * 2 ∧
    (MutualInformation id id 0 List.sum (fun _ => [[1], [1]]) 2 [[1], [2]]
      [[0], [0]]).requiresGrad = false := by
  have h := C5_mutual_information id id 0 List.sum (fun _ => [[1], [1]]) 2 [[1], [2]]
    [[0], [0]] (by norm_num) rfl (fun i => rfl)
  refine ⟨?_, h.2.2.2.2⟩
  rw [h.1]
  norm_num

/-- C8: the beam-search loop invariant.  Initially the live list holds the
single root and the completed list is empty; at every iteration entry
(`len(completed) < K`, the loop condition) the live list is nonempty; the body
takes exactly `K - len(completed)` top candidates (so afterwards the two lists
hold exactly `K` hypotheses between them), preserves the invariant, and can
empty the live list only by filling the completed list to exactly `K` — at
which point the loop exits. -/
theorem C8_beam_live_invariant {H : Type} (stepf : StepF H) (lse : List ℚ → ℚ)
    (V K endTok : ℕ) (dH : H)
    (hstep : ∀ (h : H) (tok : ℕ), (stepf h tok).2.length = V)
    (hK : 1 ≤ K) (hKV : K ≤ V) :
    (∀ root : BeamSearchNode H, beamInv K [root] ([] : List (BeamSearchNode H))) ∧
    (∀ (live completed : List (BeamSearchNode H)) (t : ℕ),
      beamInv K live completed → completed.length < K →
      live ≠ [] ∧
      (beamLoopBody stepf lse V K endTok dH live completed t).1.length +
        (beamLoopBody stepf lse V K endTok dH live completed t).2.length = K ∧
      beamInv K (beamLoopBody stepf lse V K endTok dH live completed t).1
        (beamLoopBody stepf lse V K endTok dH live completed t).2 ∧
      ((beamLoopBody stepf lse V K endTok dH live completed t).1 = [] →
        (beamLoopBody stepf lse V K endTok dH live completed t).2.length = K)) := by
  constructor
  · intro root
    exact ⟨by simp, fun _ => ⟨by simp, by simp; omega⟩⟩
  · intro live completed t hInv hlt
    obtain ⟨hcK, himp⟩ := hInv
    obtain ⟨hl1, hsum⟩ := himp hlt
    have hVlive : V ≤ live.length * V := Nat.le_mul_of_pos_left V (by omega)
    have hmin : min (K - completed.length) (live.length * V) = K - completed.length :=
      min_eq_left (by omega)
    have hacct := beamLoopBody_lengths stepf lse V K endTok dH live completed t hstep
    rw [hmin] at hacct
    have hsumK : (beamLoopBody stepf lse V K endTok dH live completed t).1.length +
        (beamLoopBody stepf lse V K endTok dH live completed t).2.length = K := by
      omega
    refine ⟨by intro hnil; rw [hnil] at hl1; simp at hl1, hsumK, ⟨by omega, ?_⟩, by
      intro hnil
      rw [hnil] at hsumK
      simpa using hsumK⟩
    intro hlt'
    omega

/-- Witness for C8 at a concrete step function with beam width 2 over a
3-word vocabulary. -/
theorem C8_beam_live_invariant_w :
    beamInv 2 [dNode ()] ([] : List (BeamSearchNode Unit)) ∧
    ([dNode ()] : List (BeamSearchNode Unit)) ≠ [] := by
  have h := C8_beam_live_invariant stepABf (fun _ => 0) 3 2 1 ()
    (fun h tok => rfl) (by norm_num) (by norm_num)
  exact ⟨h.1 (dNode ()), (h.2 [dNode ()] [] 0 (h.1 (dNode ())) (by norm_num)).1⟩

end LmVae
